import Mathlib

/-!
Verification development for the template-engine core of the repository
(src/TemplateEngine: Lexer.ts, Parser.ts, Compiler.ts, types.ts).

The TypeScript source is shallowly embedded below:

* JavaScript runtime values that a data context can contain are modelled by
  the inductive `Tpl.Value` (null, undefined, booleans, integers, strings,
  arrays, plain objects).  The engine's number literals are produced by
  `parseInt` on digit runs, so integers (`Int`) suffice; no claim involves
  floating point.
* Side effects are made explicit: the `console.error` render-time logging
  channel becomes the first component `List String` of each evaluator
  result, and a thrown JavaScript exception (`TypeError` from property
  access on `null`) becomes `Except.error ()`.
* The compile-time diagnostic reporter (`Compiler.syntaxError`) becomes an
  explicitly returned `List Tpl.Diag`, and the `hadErrors` instance flag is
  threaded as explicit state through `Tpl.compileFileSt`.
* Recursion in the source (mutual recursion between `compileStatements` /
  `compileIf` / `compileFor`, and the scanner/parser loops) is embedded
  with a structural fuel parameter plus higher-order statement renderers,
  so that every definition is a computable structural recursion that the
  kernel can evaluate.  The fuel bounds only the recursion depth of the
  embedded call graph and is chosen large enough to be unreachable for the
  inputs the theorems speak about.
-/

namespace Tpl

/-- JavaScript runtime values usable as data contexts and evaluation
results.  Objects are association lists; lookup takes the first matching
key, and object extension (spread) prepends, which models JavaScript's
last-write-wins object literals. -/
inductive Value where
  | vNull : Value
  | vUndefined : Value
  | vBool (b : Bool) : Value
  | vNum (n : Int) : Value
  | vStr (s : String) : Value
  | vArr (elems : List Value) : Value
  | vObj (fields : List (String × Value)) : Value

/-- JavaScript truthiness: null, undefined, false, 0 and "" are falsy;
every other value (including empty arrays and objects) is truthy. -/
def truthy : Value → Bool
  | .vNull => false
  | .vUndefined => false
  | .vBool b => b
  | .vNum n => n != 0
  | .vStr s => s != ""
  | .vArr _ => true
  | .vObj _ => true

/-- Is the value the `undefined` sentinel (the `!== undefined` tests of the
source)? -/
def isUndefined : Value → Bool
  | .vUndefined => true
  | _ => false

mutual

/-- JavaScript `String(v)` stringification as used by `compileStatements`
for VAR output and by array-to-primitive coercion. -/
def jsToString : Value → String
  | .vNull => "null"
  | .vUndefined => "undefined"
  | .vBool b => if b then "true" else "false"
  | .vNum n => toString n
  | .vStr s => s
  | .vArr es => String.intercalate "," (jsToStringElems es)
  | .vObj _ => "[object Object]"

/-- Element strings for `Array.prototype.toString`: null/undefined
elements print as empty text. -/
def jsToStringElems : List Value → List String
  | [] => []
  | .vNull :: rest => "" :: jsToStringElems rest
  | .vUndefined :: rest => "" :: jsToStringElems rest
  | v :: rest => jsToString v :: jsToStringElems rest

end

/-- Numeric value of a digit list (used for JavaScript string-to-number
coercion). -/
def digitsVal : List Char → Nat :=
  List.foldl (fun acc c => 10 * acc + (c.toNat - '0'.toNat)) 0

/-- Strict lexicographic order on character lists (JavaScript string
comparison; code points and UTF-16 units agree on the basic plane). -/
def charListLt : List Char → List Char → Bool
  | [], [] => false
  | [], _ :: _ => true
  | _ :: _, [] => false
  | a :: as, b :: bs =>
    if a < b then true
    else if b < a then false
    else charListLt as bs

/-- JavaScript `s1 < s2` on strings. -/
def strLt (a b : String) : Bool := charListLt a.data b.data

/-- JavaScript `s1 <= s2` on strings (`¬ (s2 < s1)`). -/
def strLe (a b : String) : Bool := !charListLt b.data a.data

/-- Whitespace trim on a character list (JavaScript `String.prototype.trim`
as used by `ToNumber`). -/
def trimChars (l : List Char) : List Char :=
  ((l.dropWhile Char.isWhitespace).reverse.dropWhile Char.isWhitespace).reverse

/-- JavaScript `ToNumber` on a string, restricted to the integral numeric
strings that can appear here (`none` models NaN; float/hex/exponent forms
are irrelevant to every claim and map to NaN). -/
def strToNumber (s : String) : Option Int :=
  let t := trimChars s.data
  if t = [] then some 0
  else
    match t with
    | '-' :: rest =>
      if rest ≠ [] ∧ rest.all Char.isDigit then some (-(digitsVal rest : Int)) else none
    | '+' :: rest =>
      if rest ≠ [] ∧ rest.all Char.isDigit then some ((digitsVal rest : Int)) else none
    | ds =>
      if ds.all Char.isDigit then some ((digitsVal ds : Int)) else none

/-- JavaScript `ToNumber` (`none` models NaN).  Arrays coerce through
their string form; plain objects coerce to `"[object Object]"`, i.e. NaN. -/
def toNumber : Value → Option Int
  | .vNull => some 0
  | .vUndefined => none
  | .vBool b => some (if b then 1 else 0)
  | .vNum n => some n
  | .vStr s => strToNumber s
  | .vArr es => strToNumber (jsToString (.vArr es))
  | .vObj _ => none

mutual

/-- Structural equality test on values.  JavaScript strict equality `===`
is exactly this on primitives; on arrays/objects the host compares
references, which a pure shallow embedding cannot express, so structural
equality stands in (no claim depends on `==`/`!=` between composites). -/
def valueBeq : Value → Value → Bool
  | .vNull, .vNull => true
  | .vUndefined, .vUndefined => true
  | .vBool a, .vBool b => a == b
  | .vNum a, .vNum b => a == b
  | .vStr a, .vStr b => a == b
  | .vArr a, .vArr b => valueListBeq a b
  | .vObj a, .vObj b => valueFieldsBeq a b
  | _, _ => false

/-- Elementwise equality of value lists. -/
def valueListBeq : List Value → List Value → Bool
  | [], [] => true
  | a :: as, b :: bs => valueBeq a b && valueListBeq as bs
  | _, _ => false

/-- Fieldwise equality of object field lists. -/
def valueFieldsBeq : List (String × Value) → List (String × Value) → Bool
  | [], [] => true
  | (k1, a) :: as, (k2, b) :: bs => k1 == k2 && valueBeq a b && valueFieldsBeq as bs
  | _, _ => false

end

/-- JavaScript strict equality `===` (see `valueBeq`). -/
def strictEq (a b : Value) : Bool := valueBeq a b

/-- JavaScript `<`: lexicographic on two strings, else numeric after
`ToNumber`, false if either side is NaN. -/
def jsLess (v1 v2 : Value) : Bool :=
  match v1, v2 with
  | .vStr a, .vStr b => strLt a b
  | _, _ =>
    match toNumber v1, toNumber v2 with
    | some a, some b => a < b
    | _, _ => false

/-- JavaScript `>`. -/
def jsGreater (v1 v2 : Value) : Bool :=
  match v1, v2 with
  | .vStr a, .vStr b => strLt b a
  | _, _ =>
    match toNumber v1, toNumber v2 with
    | some a, some b => b < a
    | _, _ => false

/-- JavaScript `<=` (false when a side is NaN). -/
def jsLessEq (v1 v2 : Value) : Bool :=
  match v1, v2 with
  | .vStr a, .vStr b => strLe a b
  | _, _ =>
    match toNumber v1, toNumber v2 with
    | some a, some b => a ≤ b
    | _, _ => false

/-- JavaScript `>=` (false when a side is NaN). -/
def jsGreaterEq (v1 v2 : Value) : Bool :=
  match v1, v2 with
  | .vStr a, .vStr b => strLe b a
  | _, _ =>
    match toNumber v1, toNumber v2 with
    | some a, some b => b ≤ a
    | _, _ => false

/-- First-match association-list lookup; `vUndefined` for an absent key
(JavaScript property access on a plain object). -/
def lookupFirst : List (String × Value) → String → Value
  | [], _ => .vUndefined
  | (k, v) :: rest, key => if k = key then v else lookupFirst rest key

/-- Parse a string as a natural number if it is all digits (helper for
canonical array-index detection). -/
def parseDigits (key : String) : Option Nat :=
  if key.data ≠ [] ∧ key.data.all Char.isDigit then some (digitsVal key.data) else none

/-- JavaScript property access `arr[key]` on an array: canonical numeric
strings index the elements, `"length"` is the length, everything else is
undefined. -/
def arrIndex (elems : List Value) (key : String) : Value :=
  if key = "length" then .vNum elems.length
  else
    match parseDigits key with
    | some i => if toString i = key then elems.getD i .vUndefined else .vUndefined
    | none => .vUndefined

/-- JavaScript property access `s[key]` on a string (only reachable in the
source behind a `typeof` guard that excludes strings, kept for totality). -/
def strIndex (s : String) (key : String) : Value :=
  if key = "length" then .vNum s.data.length
  else
    match parseDigits key with
    | some i =>
      if toString i = key then
        match s.data.get? i with
        | some c => .vStr (String.mk [c])
        | none => .vUndefined
      else .vUndefined
    | none => .vUndefined

/-- JavaScript property access `v[key]`.  Property access on `null` or
`undefined` throws a TypeError, modelled by `Except.error ()`. -/
def jsIndex : Value → String → Except Unit Value
  | .vNull, _ => .error ()
  | .vUndefined, _ => .error ()
  | .vObj fields, key => .ok (lookupFirst fields key)
  | .vArr elems, key => .ok (arrIndex elems key)
  | .vStr s, key => .ok (strIndex s key)
  | .vBool _, _ => .ok .vUndefined
  | .vNum _, _ => .ok .vUndefined

/-- JavaScript `typeof v === "object"`: true for objects, arrays and —
famously — `null`. -/
def typeofIsObject : Value → Bool
  | .vNull => true
  | .vObj _ => true
  | .vArr _ => true
  | _ => false

/-- Does the key look like an array index to `getVarValue`'s path
formatter (`/[0-9]/.test(key[0])`)? -/
def keyIsIndexLike (key : String) : Bool :=
  match key.data with
  | [] => false
  | c :: _ => c.isDigit

/-- Path accumulation of `getVarValue` (`currentPath` updates). -/
def pathAppend (first : Bool) (currentPath key : String) : String :=
  if first then key
  else if keyIsIndexLike key then currentPath ++ "[" ++ key ++ "]"
  else currentPath ++ "." ++ key

/-- Loop body of `getVarValue` (Compiler.ts lines 34-64): walk the keys,
guarding each step with `typeof currentObj !== "object"`, logging and
degrading to `undefined` on a failed lookup.  The `first` flag is `i == 0`
of the source loop. -/
def getVarValueAux : List String → String → Bool → Value → List String × Except Unit Value
  | [], _, _, _ => ([], .ok .vUndefined)
  | key :: rest, currentPath, first, currentObj =>
    if typeofIsObject currentObj = false then
      (["[ERROR] \"" ++ key ++ "\" can\x27t be found in \"" ++ currentPath ++ "\""],
       .ok .vUndefined)
    else
      let newPath := pathAppend first currentPath key
      match jsIndex currentObj key with
      | .error e => ([], .error e)
      | .ok v =>
        if isUndefined v then
          (["[ERROR] \"" ++ newPath ++ "\" is undefined"], .ok .vUndefined)
        else if rest.isEmpty then ([], .ok v)
        else getVarValueAux rest newPath false v

/-- `getVarValue(stmt, args)` of Compiler.ts: resolve a variable path in a
data context, returning the emitted `console.error` lines and either the
resolved value or a thrown TypeError. -/
def getVarValue (keys : List String) (args : Value) : List String × Except Unit Value :=
  getVarValueAux keys "" true args

/-- Logic-expression operators (types.ts `Operators`). -/
inductive Operators where
  | EQUAL | NOT_EQUAL | GREATHER | LESS
  | GREATHER_OR_EQ | LESS_OR_EQ | AND | OR
deriving DecidableEq

/-- Operand of a Unary logic expression (types.ts `UnaryExpr.value`:
`VarStmt | number | string`). -/
inductive UnaryValue where
  | num (n : Int)
  | str (s : String)
  | varV (keys : List String)
deriving DecidableEq

/-- Logic expressions (types.ts `LogicExpr`). -/
inductive LogicExpr where
  | unary (value : UnaryValue) (negated : Bool)
  | binary (operator : Operators) (left right : LogicExpr)
deriving DecidableEq

/-- Template statements (types.ts `Stmt`).  `varStmt` carries the key path
of a `VarStmt`, `forStmt` carries the `arrayVar` key path, the loop item
name and the body. -/
inductive Stmt where
  | literal (contents : String)
  | varStmt (keys : List String)
  | ifStmt (condition : LogicExpr) (stmts : List Stmt)
  | forStmt (arrayVar : List String) (itemName : String) (stmts : List Stmt)

mutual

/-- Size of a statement, dominating the recursion depth needed to render
it (replaces the noncomputable automatic `sizeOf` on this nested
inductive). -/
def stmtSize : Stmt → Nat
  | .literal _ => 1
  | .varStmt _ => 1
  | .ifStmt _ body => 1 + stmtsSize body
  | .forStmt _ _ body => 1 + stmtsSize body

/-- Size of a statement list. -/
def stmtsSize : List Stmt → Nat
  | [] => 1
  | s :: rest => 1 + stmtSize s + stmtsSize rest

end

/-- `compileLogicExpr` of Compiler.ts (lines 69-98).  Both operands of a
Binary are evaluated before the operator is applied; `&&`/`||` are the
native JavaScript operators on the evaluated values. -/
def compileLogicExpr : LogicExpr → Value → List String × Except Unit Value
  | .unary value negated, args =>
    let (log, r) :=
      match value with
      | .num n => (([] : List String), Except.ok (Value.vNum n))
      | .str s => ([], Except.ok (Value.vStr s))
      | .varV keys => getVarValue keys args
    match r with
    | .error e => (log, .error e)
    | .ok v => (log, .ok (if negated then Value.vBool (!truthy v) else v))
  | .binary op l r, args =>
    let (log1, r1) := compileLogicExpr l args
    match r1 with
    | .error e => (log1, .error e)
    | .ok v1 =>
      let (log2, r2) := compileLogicExpr r args
      match r2 with
      | .error e => (log1 ++ log2, .error e)
      | .ok v2 =>
        (log1 ++ log2, .ok (
          match op with
          | .EQUAL => .vBool (strictEq v1 v2)
          | .NOT_EQUAL => .vBool (!strictEq v1 v2)
          | .GREATHER => .vBool (jsGreater v1 v2)
          | .LESS => .vBool (jsLess v1 v2)
          | .GREATHER_OR_EQ => .vBool (jsGreaterEq v1 v2)
          | .LESS_OR_EQ => .vBool (jsLessEq v1 v2)
          | .AND => if truthy v1 then v2 else v1
          | .OR => if truthy v1 then v1 else v2))

/-- Result of rendering: emitted `console.error` lines paired with either
the output string or a thrown exception. -/
abbrev RenderRes := List String × Except Unit String

/-- Own enumerable properties contributed by object spread `{...args}`:
object fields stay, array elements appear under their index strings,
string characters under their index strings, primitives contribute
nothing. -/
def spreadFields : Value → List (String × Value)
  | .vObj fs => fs
  | .vArr es => ((List.range es.length).zip es).map (fun p => (toString p.1, p.2))
  | .vStr s =>
    ((List.range s.data.length).zip (s.data.map (fun c => Value.vStr (String.mk [c])))).map
      (fun p => (toString p.1, p.2))
  | _ => []

/-- `{...args, [itemName]: item}` of `compileFor`: the enclosing context
extended with `itemName` bound to `item`, shadowing any existing binding
(prepending to a first-match association list). -/
def extendCtx (args : Value) (name : String) (item : Value) : Value :=
  .vObj ((name, item) :: spreadFields args)

/-- The `for(const item of array)` accumulation loop of `compileFor`
(lines 121-125), parametrised by the per-item renderer.  Exceptions stop
the loop; logs accumulate in iteration order. -/
def compileForLoop (renderOne : Value → RenderRes) : List Value → String → RenderRes
  | [], res => ([], .ok res)
  | item :: rest, res =>
    let (log, r) := renderOne item
    match r with
    | .error e => (log, .error e)
    | .ok s =>
      let (log2, r2) := compileForLoop renderOne rest (res ++ s)
      (log ++ log2, r2)

/-- `compileIf` of Compiler.ts (lines 100-106), parametrised by the
statement renderer (the source's mutual recursion with
`compileStatements`). -/
def compileIf (renderStmts : List Stmt → Value → RenderRes)
    (condition : LogicExpr) (stmts : List Stmt) (args : Value) : RenderRes :=
  let (log, r) := compileLogicExpr condition args
  match r with
  | .error e => (log, .error e)
  | .ok v =>
    if truthy v then
      let (l2, r2) := renderStmts stmts args
      (log ++ l2, r2)
    else (log, .ok "")

/-- `compileFor` of Compiler.ts (lines 108-128), parametrised by the
statement renderer: resolve the iterable; falsy resolutions render empty;
truthy non-arrays log `given var is not an array` and render empty;
arrays render the body once per element against the extended context. -/
def compileFor (renderStmts : List Stmt → Value → RenderRes)
    (arrayVar : List String) (itemName : String) (stmts : List Stmt)
    (args : Value) : RenderRes :=
  let (log0, r) := getVarValue arrayVar args
  match r with
  | .error e => (log0, .error e)
  | .ok arr =>
    if truthy arr = false then (log0, .ok "")
    else
      match arr with
      | .vArr items =>
        let (l, res) := compileForLoop
          (fun item => renderStmts stmts (extendCtx args itemName item)) items ""
        (log0 ++ l, res)
      | _ => (log0 ++ ["[ERROR] given var is not an array"], .ok "")

/-- `compileStatements` of Compiler.ts (lines 130-149): concatenate the
renderings of the statements in order.  The structural fuel bounds the
embedded recursion depth (statement-list length plus nesting); it is not
part of the source, which recurses directly. -/
def compileStatements : Nat → List Stmt → Value → RenderRes
  | _, [], _ => ([], .ok "")
  | 0, _ :: _, _ => ([], .error ())
  | fuel + 1, stmt :: rest, args =>
    let (l1, r1) :=
      match stmt with
      | .literal contents => (([] : List String), Except.ok contents)
      | .varStmt keys =>
        let (lg, r) := getVarValue keys args
        (lg, r.map jsToString)
      | .ifStmt cond body => compileIf (compileStatements fuel) cond body args
      | .forStmt arrayVar itemName body =>
        compileFor (compileStatements fuel) arrayVar itemName body args
    match r1 with
    | .error e => (l1, .error e)
    | .ok s1 =>
      let (l2, r2) := compileStatements fuel rest args
      (l1 ++ l2, match r2 with | .error e => .error e | .ok s2 => .ok (s1 ++ s2))

/-- The render closure `(args) => compileStatements(statements, args)`
returned by `Compiler.compileFile`; `stmtsSize statements` strictly
dominates the fuel the embedded recursion can consume. -/
def runView (statements : List Stmt) (args : Value) : RenderRes :=
  compileStatements (stmtsSize statements) statements args

/-! ## Scanner (Lexer.ts) -/

/-- Token kinds (types.ts `TokenType`). -/
inductive TokenType where
  | LITERAL
  | OPEN_EXPR | CLOSE_EXPR
  | OPEN_BRACKET | CLOSE_BRACKET
  | OPEN_PAREN | CLOSE_PAREN
  | IDENTIFIER
  | DOT
  | NUMBER
  | IF | ENDIF
  | BANG
  | DOUBLE_EQUAL | BANG_EQUAL
  | GREATHER | LESS
  | GREATHER_OR_EQ | LESS_OR_EQ
  | STRING
  | DOUBLE_AND
  | OR
  | FOR | ENDFOR | IN
  | EOF
deriving DecidableEq

/-- Tokens (types.ts `Token`): kind, lexeme, line, and the inclusive
start / exclusive end column pair. -/
structure Token where
  type : TokenType
  lexeme : String
  line : Nat
  col : Nat × Nat
deriving DecidableEq

/-- Position payload of a diagnostic: `Compiler.syntaxError` accepts a
single column or a `[start, end]` column span. -/
inductive ColRef where
  | single (n : Nat)
  | span (s e : Nat)
deriving DecidableEq

/-- A reported compile-time diagnostic (one `Compiler.syntaxError` call);
the ANSI-coloured rendering of `syntaxError` is presentation and not
modelled. -/
structure Diag where
  message : String
  line : Nat
  col : ColRef
deriving DecidableEq

/-- Scanner state: the `Lexer` fields `current`, `start`, `line`,
`colStart`, `colCurrent`, the accumulated tokens, and the diagnostics
reported through the compiler. -/
structure LexSt where
  current : Nat
  start : Nat
  line : Nat
  colStart : Nat
  colCurrent : Nat
  tokens : List Token
  errors : List Diag

/-- Initial scanner state. -/
def initLexSt : LexSt := ⟨0, 0, 1, 1, 1, [], []⟩

/-- `Lexer.isAtTheEnd`. -/
def lexAtEnd (buf : List Char) (st : LexSt) : Bool := buf.length ≤ st.current

/-- `Lexer.peek` (`undefined` past the end becomes `none`). -/
def peekL (buf : List Char) (st : LexSt) : Option Char := buf.get? st.current

/-- `Lexer.advance`: bump the column, handle a newline, return the char
under the cursor and move past it. -/
def advanceL (buf : List Char) (st : LexSt) : Option Char × LexSt :=
  let c := buf.get? st.current
  let st := { st with colCurrent := st.colCurrent + 1 }
  let st :=
    if c = some '\n' then { st with line := st.line + 1, colStart := 1, colCurrent := 1 }
    else st
  (c, { st with current := st.current + 1 })

/-- `Lexer.match`: advance past the next char iff it equals `c`. -/
def matchL (buf : List Char) (st : LexSt) (c : Char) : Bool × LexSt :=
  if peekL buf st = some c then (true, (advanceL buf st).2) else (false, st)

/-- The lexeme slice `buffer.slice(start, current)`. -/
def sliceL (buf : List Char) (s e : Nat) : String := String.mk ((buf.drop s).take (e - s))

/-- `Lexer.addToken`: push a token (lexeme defaults to the current slice)
and re-sync `start`/`colStart`. -/
def addToken (buf : List Char) (st : LexSt) (type : TokenType) (lexeme : Option String) : LexSt :=
  let lex := lexeme.getD (sliceL buf st.start st.current)
  { st with
    tokens := st.tokens ++ [⟨type, lex, st.line, (st.colStart, st.colCurrent)⟩]
    start := st.current
    colStart := st.colCurrent }

/-- `Lexer.error`: report through `Compiler.syntaxError` and re-sync
`start`/`colStart`. -/
def lexError (st : LexSt) (message : String) (line : Nat) (col : ColRef) : LexSt :=
  { st with
    errors := st.errors ++ [⟨message, line, col⟩]
    start := st.current
    colStart := st.colCurrent }

/-- The keyword table of the `Lexer` constructor. -/
def keywordType (text : String) : Option TokenType :=
  if text = "if" then some .IF
  else if text = "endif" then some .ENDIF
  else if text = "for" then some .FOR
  else if text = "endfor" then some .ENDFOR
  else if text = "in" then some .IN
  else none

/-- Identifier continuation characters (`/[A-Za-z$_0-9]/`).  The source
tests the regex before checking `isAtTheEnd`, and `undefined` coerces to
the string "undefined" which matches, hence `none ↦ true`. -/
def identCharTest : Option Char → Bool
  | some c => c.isAlpha || c.isDigit || c = '$' || c = '_'
  | none => true

/-- Identifier start characters (`/[A-Za-z$_]/`). -/
def isIdentStart (c : Char) : Bool := c.isAlpha || c = '$' || c = '_'

/-- Digit test on the peeked char (`/[0-9]/`; "undefined" has no digit). -/
def digitCharTest : Option Char → Bool
  | some c => c.isDigit
  | none => false

/-- The scan loop of `Lexer.identifier`. -/
def identifierLoop (buf : List Char) : Nat → LexSt → LexSt
  | 0, st => st
  | fuel + 1, st =>
    if identCharTest (peekL buf st) ∧ ¬ lexAtEnd buf st then
      identifierLoop buf fuel (advanceL buf st).2
    else st

/-- `Lexer.identifier`: extend over identifier chars, then emit either the
keyword token or IDENTIFIER. -/
def identifier (buf : List Char) (fuel : Nat) (st : LexSt) : LexSt :=
  let st := identifierLoop buf fuel st
  let text := sliceL buf st.start st.current
  match keywordType text with
  | some ty => addToken buf st ty none
  | none => addToken buf st .IDENTIFIER none

/-- The scan loop of `Lexer.number`. -/
def numberLoop (buf : List Char) : Nat → LexSt → LexSt
  | 0, st => st
  | fuel + 1, st =>
    if digitCharTest (peekL buf st) ∧ ¬ lexAtEnd buf st then
      numberLoop buf fuel (advanceL buf st).2
    else st

/-- `Lexer.number`. -/
def number (buf : List Char) (fuel : Nat) (st : LexSt) : LexSt :=
  addToken buf (numberLoop buf fuel st) .NUMBER none

/-- The scan loop of `Lexer.string` (stops before a closing quote, a
newline, or the end of input). -/
def stringLoop (buf : List Char) : Nat → LexSt → LexSt
  | 0, st => st
  | fuel + 1, st =>
    if peekL buf st ≠ some '\x22' ∧ peekL buf st ≠ some '\n' ∧ ¬ lexAtEnd buf st then
      stringLoop buf fuel (advanceL buf st).2
    else st

/-- `Lexer.string`: scan to the closing quote; a missing close is a
lexical error spanning from the opening quote; the STRING token carries
the text between the quotes (computed after the error re-synced `start`,
as in the source). -/
def stringTok (buf : List Char) (fuel : Nat) (st : LexSt) : LexSt :=
  let st := stringLoop buf fuel st
  let (m, st) := matchL buf st '\x22'
  let st :=
    if m then st
    else lexError st "Missing terminating \x22 character" st.line (.span st.colStart st.colCurrent)
  let lexeme := sliceL buf (st.start + 1) (st.current - 1)
  addToken buf st .STRING (some lexeme)

/-- One branch of the `switch` in `Lexer.scanExpr` handling a probing
two-character operator (`=`→`==`, `&`→`&&`, `|`→`||`): on a failed probe
the source advances once more and reports `Expected character "…"`. -/
def scanPairOrError (buf : List Char) (st : LexSt) (second : Char) (ty : TokenType)
    (msg : String) : LexSt :=
  let (m, st) := matchL buf st second
  if m then addToken buf st ty none
  else
    let st := (advanceL buf st).2
    lexError st msg st.line (.single (st.colCurrent - 1))

/-- The scan loop of `Lexer.scanExpr` (lines 98-160): dispatch each char
inside a `{{ … }}` region.  Stops before `}`, a newline, or end of
input. -/
def scanExprLoop (buf : List Char) : Nat → LexSt → LexSt
  | 0, st => st
  | fuel + 1, st =>
    if peekL buf st ≠ some '\x7d' ∧ peekL buf st ≠ some '\n' ∧ ¬ lexAtEnd buf st then
      let (c, st) := advanceL buf st
      let st :=
        match c with
        | some '.' => addToken buf st .DOT none
        | some '[' => addToken buf st .OPEN_BRACKET none
        | some ']' => addToken buf st .CLOSE_BRACKET none
        | some '(' => addToken buf st .OPEN_PAREN none
        | some ')' => addToken buf st .CLOSE_PAREN none
        | some '!' =>
          let (m, st) := matchL buf st '='
          if m then addToken buf st .BANG_EQUAL none else addToken buf st .BANG none
        | some '=' => scanPairOrError buf st '=' .DOUBLE_EQUAL "Expected character \x22=\x22"
        | some '>' =>
          let (m, st) := matchL buf st '='
          if m then addToken buf st .GREATHER_OR_EQ none else addToken buf st .GREATHER none
        | some '<' =>
          let (m, st) := matchL buf st '='
          if m then addToken buf st .LESS_OR_EQ none else addToken buf st .LESS none
        | some '\x22' => stringTok buf fuel st
        | some '&' => scanPairOrError buf st '&' .DOUBLE_AND "Expected character \x22&\x22"
        | some '|' => scanPairOrError buf st '|' .OR "Expected character \x22|\x22"
        | some ' ' => { st with start := st.current, colStart := st.colCurrent }
        | some ch =>
          if ch.isDigit then number buf fuel st
          else if isIdentStart ch then identifier buf fuel st
          else lexError st "Unexpected character" st.line (.single (st.colCurrent - 1))
        | none => st
      scanExprLoop buf fuel st
    else st

/-- `Lexer.scanExpr`: the dispatch loop followed by the double `}` probe
emitting CLOSE_EXPR. -/
def scanExpr (buf : List Char) (fuel : Nat) (st : LexSt) : LexSt :=
  let st := scanExprLoop buf fuel st
  let (m1, st) := matchL buf st '\x7d'
  if m1 then
    let (m2, st) := matchL buf st '\x7d'
    if m2 then addToken buf st .CLOSE_EXPR none else st
  else st

/-- The scan loop of `Lexer.scanLiteral` (stops before `{` or end of
input). -/
def scanLiteralLoop (buf : List Char) : Nat → LexSt → LexSt
  | 0, st => st
  | fuel + 1, st =>
    if peekL buf st ≠ some '\x7b' ∧ ¬ lexAtEnd buf st then
      scanLiteralLoop buf fuel (advanceL buf st).2
    else st

/-- `Lexer.scanLiteral`. -/
def scanLiteral (buf : List Char) (fuel : Nat) (st : LexSt) : LexSt :=
  addToken buf (scanLiteralLoop buf fuel st) .LITERAL none

/-- The top scan loop of `Lexer.scanTokens`: consume one char; a `{{`
opens an expression region, anything else extends a literal run.  The
final EOF token is appended when the input is exhausted. -/
def scanTokensLoop (buf : List Char) : Nat → LexSt → LexSt
  | 0, st => st
  | fuel + 1, st =>
    if lexAtEnd buf st then addToken buf st .EOF none
    else
      let (c, st) := advanceL buf st
      let st :=
        if c = some '\x7b' then
          let (m, st) := matchL buf st '\x7b'
          if m then scanExpr buf fuel (addToken buf st .OPEN_EXPR none)
          else scanLiteral buf fuel st
        else scanLiteral buf fuel st
      scanTokensLoop buf fuel st

/-- `Lexer.scanTokens`: run the scanner over a buffer, returning the token
sequence and the lexical diagnostics (the writer-style rendering of the
`compiler.syntaxError` side channel).  The fuel strictly dominates the
number of loop iterations, each of which consumes at least one char. -/
def scanTokens (buf : List Char) : List Token × List Diag :=
  let st := scanTokensLoop buf (buf.length + 10) initLexSt
  (st.tokens, st.errors)

/-! ## Parser (Parser.ts)

Parser functions return the diagnostics they report plus either a result
with the new cursor, or `Except.error c` modelling a thrown `Error` with
the cursor position `c` at which the exception left the parser (the
`try`/`catch` recovery in `parseExpr` resynchronises from there).  The
body parser is threaded as a callback `parseAt` so that the whole mutual
recursion is a single structural recursion on fuel in `parseLoop`. -/

/-- The default `Token` used when the cursor runs past the token list;
its type is EOF, so `isAtTheEnd` sees the end exactly as the source does
on lexer-produced (EOF-terminated) token sequences. -/
def eofToken : Token := ⟨.EOF, "", 0, (0, 0)⟩

/-- `Parser.peek`. -/
def peekP (tokens : List Token) (c : Nat) : Token := tokens.getD c eofToken

/-- `Parser.prev` (`cursor > 0 ? cursor - 1 : 0`; `Nat` subtraction
matches). -/
def prevP (tokens : List Token) (c : Nat) : Token := tokens.getD (c - 1) eofToken

/-- `Parser.isNext`. -/
def isNextP (tokens : List Token) (c : Nat) (ty : TokenType) (offset : Nat) : Bool :=
  if c + offset < tokens.length then (peekP tokens (c + offset)).type = ty else false

/-- `Parser.match`: consume the next token iff it has the wanted type
(never consumes at EOF). -/
def matchP (tokens : List Token) (c : Nat) (ty : TokenType) : Bool × Nat :=
  if (peekP tokens c).type = .EOF then (false, c)
  else if isNextP tokens c ty 0 then (true, c + 1)
  else (false, c)

/-- `Parser.errorAfter`: a diagnostic anchored just after a token (its end
column). -/
def diagAfter (t : Token) (msg : String) : Diag := ⟨msg, t.line, .single t.col.2⟩

/-- `Parser.error` / `syntaxErrorToken`: a diagnostic anchored at a
token's column span. -/
def diagAt (t : Token) (msg : String) : Diag := ⟨msg, t.line, .span t.col.1 t.col.2⟩

/-- `Parser.consume`: match or report-and-throw; on success the result is
the consumed token (`this.prev()`). -/
def consumeP (tokens : List Token) (c : Nat) (ty : TokenType) (msg : String) :
    List Diag × Except Nat (Token × Nat) :=
  let (m, c') := matchP tokens c ty
  if m then ([], .ok (prevP tokens c', c'))
  else ([diagAfter (prevP tokens c) msg], .error c)

/-- The `TokenAndOperators` map of types.ts. -/
def tokenToOp : TokenType → Option Operators
  | .DOUBLE_EQUAL => some .EQUAL
  | .BANG_EQUAL => some .NOT_EQUAL
  | .GREATHER => some .GREATHER
  | .LESS => some .LESS
  | .GREATHER_OR_EQ => some .GREATHER_OR_EQ
  | .LESS_OR_EQ => some .LESS_OR_EQ
  | .DOUBLE_AND => some .AND
  | .OR => some .OR
  | _ => none

/-- JavaScript `parseInt` on a NUMBER lexeme (always a digit run as
produced by the scanner). -/
def parseIntLex (s : String) : Int :=
  match parseDigits s with
  | some n => n
  | none => 0

/-- Token types at which `parseExpr`'s catch-handler stops discarding
tokens (LITERAL, OPEN_EXPR, CLOSE_EXPR, or the end of input). -/
def syncStops (ty : TokenType) : Bool :=
  ty = .OPEN_EXPR || ty = .CLOSE_EXPR || ty = .LITERAL || ty = .EOF

/-- Number of tokens the catch-handler discards. -/
def syncCount : List Token → Nat
  | [] => 0
  | t :: rest => if syncStops t.type then 0 else 1 + syncCount rest

/-- Panic-mode resynchronisation of `parseExpr`'s catch-handler: discard
tokens until a LITERAL / OPEN_EXPR / CLOSE_EXPR boundary or EOF. -/
def syncFrom (tokens : List Token) (c : Nat) : Nat := c + syncCount (tokens.drop c)

/-- The `.`/`[` chaining loop of `Parser.variable` (lines 75-86),
accumulating path keys. -/
def varLoop (tokens : List Token) : Nat → Nat → List String →
    List Diag × Except Nat (List String × Nat)
  | 0, c, keys => ([], .ok (keys, c))
  | fuel + 1, c, keys =>
    if isNextP tokens c .DOT 0 || isNextP tokens c .OPEN_BRACKET 0 then
      let prevToken := peekP tokens c
      let c := c + 1
      if prevToken.type = .DOT then
        match consumeP tokens c .IDENTIFIER "Expected property name after \x22.\x22" with
        | (ds, .error ce) => (ds, .error ce)
        | (ds, .ok (tkn, c2)) =>
          let (ds2, r) := varLoop tokens fuel c2 (keys ++ [tkn.lexeme])
          (ds ++ ds2, r)
      else if prevToken.type = .OPEN_BRACKET then
        match consumeP tokens c .NUMBER "Expected array index after \x22[\x22" with
        | (ds, .error ce) => (ds, .error ce)
        | (ds, .ok (tkn, c2)) =>
          match consumeP tokens c2 .CLOSE_BRACKET "Expected \x22]\x22 after index" with
          | (ds3, .error ce) => (ds ++ ds3, .error ce)
          | (ds3, .ok (_, c3)) =>
            let (ds2, r) := varLoop tokens fuel c3 (keys ++ [tkn.lexeme])
            (ds ++ ds3 ++ ds2, r)
      else
        let (ds2, r) := varLoop tokens fuel c keys
        (ds2, r)
    else ([], .ok (keys, c))

/-- `Parser.variable` (lines 68-92): an IDENTIFIER followed by `.key` /
`[index]` chains; produces the key path of a `VarStmt`. -/
def variableP (tokens : List Token) (fuel : Nat) (c : Nat) :
    List Diag × Except Nat (List String × Nat) :=
  match consumeP tokens c .IDENTIFIER "Expected variable name" with
  | (ds, .error ce) => (ds, .error ce)
  | (ds, .ok (tok, c1)) =>
    let (ds2, r) := varLoop tokens fuel c1 [tok.lexeme]
    (ds ++ ds2, r)

/-- `Parser.primary` (lines 94-105): a number, a string, or a variable;
anything else reports `Expected expression` after the previous token and
throws. -/
def primaryP (tokens : List Token) (fuel : Nat) (c : Nat) :
    List Diag × Except Nat (UnaryValue × Nat) :=
  match (peekP tokens c).type with
  | .NUMBER => ([], .ok (.num (parseIntLex (peekP tokens c).lexeme), c + 1))
  | .STRING => ([], .ok (.str (peekP tokens c).lexeme, c + 1))
  | .IDENTIFIER =>
    match variableP tokens fuel c with
    | (ds, .error ce) => (ds, .error ce)
    | (ds, .ok (keys, c')) => (ds, .ok (.varV keys, c'))
  | _ => ([diagAfter (prevP tokens c) "Expected expression"], .error c)

/-- `Parser.unary` (lines 107-121): an optional `!` and a primary, always
yielding a Unary node. -/
def unaryP (tokens : List Token) (fuel : Nat) (c : Nat) :
    List Diag × Except Nat (LogicExpr × Nat) :=
  let (negated, c) := matchP tokens c .BANG
  match primaryP tokens fuel c with
  | (ds, .error ce) => (ds, .error ce)
  | (ds, .ok (value, c')) => (ds, .ok (.unary value negated, c'))

/-- The operator-chaining loop of `Parser.condition` (lines 138-141):
while the next token is an operator, `Parser.binary` consumes it, parses a
Unary right operand, and wraps the expression so far as the left child —
strict left association with no precedence. -/
def conditionLoop (tokens : List Token) : Nat → Nat → LogicExpr →
    List Diag × Except Nat (LogicExpr × Nat)
  | 0, c, e => ([], .ok (e, c))
  | fuel + 1, c, e =>
    match tokenToOp (peekP tokens c).type with
    | none => ([], .ok (e, c))
    | some op =>
      let c1 := c + 1
      match unaryP tokens fuel c1 with
      | (ds, .error ce) => (ds, .error ce)
      | (ds, .ok (right, c2)) =>
        let (ds2, r) := conditionLoop tokens fuel c2 (.binary op e right)
        (ds ++ ds2, r)

/-- `Parser.condition` (lines 135-143). -/
def condition (tokens : List Token) (fuel : Nat) (c : Nat) :
    List Diag × Except Nat (LogicExpr × Nat) :=
  match unaryP tokens fuel c with
  | (ds, .error ce) => (ds, .error ce)
  | (ds, .ok (e, c1)) =>
    let (ds2, r) := conditionLoop tokens fuel c1 e
    (ds ++ ds2, r)

/-- The type of the statement-sequence parser threaded into `parseExpr`
and the statement parsers: cursor and optional body-closing keyword in,
diagnostics, nodes and new cursor out. -/
abbrev ParseAt := Nat → Option TokenType → List Diag × (List Stmt × Nat)

/-- `Parser.ifStatement` (lines 145-176). -/
def ifStatement (parseAt : ParseAt) (tokens : List Token) (fuel : Nat) (c : Nat) :
    List Diag × Except Nat (Stmt × Nat) :=
  let (_, c) := matchP tokens c .IF
  let ifToken := prevP tokens c
  match consumeP tokens c .OPEN_PAREN "Expected \x22(\x22 after \x22if\x22" with
  | (ds1, .error ce) => (ds1, .error ce)
  | (ds1, .ok (_, c)) =>
    match condition tokens fuel c with
    | (ds2, .error ce) => (ds1 ++ ds2, .error ce)
    | (ds2, .ok (cond, c)) =>
      let (mcp, c') := matchP tokens c .CLOSE_PAREN
      if ¬ mcp then
        if ¬ isNextP tokens c .CLOSE_EXPR 0 then
          (ds1 ++ ds2 ++ [diagAfter (prevP tokens c) "Expected operator after expression"],
           .error c)
        else
          (ds1 ++ ds2 ++ [diagAfter (prevP tokens c) "Expected \x22)\x22 after condition"],
           .error c)
      else
        match consumeP tokens c' .CLOSE_EXPR "Expected \x22\x7d\x7d\x22 after \x22if\x22 statement" with
        | (ds3, .error ce) => (ds1 ++ ds2 ++ ds3, .error ce)
        | (ds3, .ok (_, c2)) =>
          let (ds4, (nodes, c3)) := parseAt c2 (some .ENDIF)
          let (m1, c4) := matchP tokens c3 .OPEN_EXPR
          let (m2, c5) := if m1 then matchP tokens c4 .ENDIF else (false, c4)
          if m1 ∧ m2 then
            (ds1 ++ ds2 ++ ds3 ++ ds4, .ok (.ifStmt cond nodes, c5))
          else
            (ds1 ++ ds2 ++ ds3 ++ ds4 ++ [diagAt ifToken "Unterminated if statement"],
             .error c5)

/-- `Parser.forStatement` (lines 178-211). -/
def forStatement (parseAt : ParseAt) (tokens : List Token) (fuel : Nat) (c : Nat) :
    List Diag × Except Nat (Stmt × Nat) :=
  let forToken := peekP tokens c
  let c := c + 1
  match consumeP tokens c .OPEN_PAREN "Expected \x22(\x22 after \x22for\x22" with
  | (ds1, .error ce) => (ds1, .error ce)
  | (ds1, .ok (_, c)) =>
    match consumeP tokens c .IDENTIFIER "Expected declaration after \x22(\x22" with
    | (ds2, .error ce) => (ds1 ++ ds2, .error ce)
    | (ds2, .ok (nameToken, c)) =>
      match consumeP tokens c .IN "Expected \x22in\x22 keyword after declaration" with
      | (ds3, .error ce) => (ds1 ++ ds2 ++ ds3, .error ce)
      | (ds3, .ok (_, c)) =>
        if ¬ isNextP tokens c .IDENTIFIER 0 then
          (ds1 ++ ds2 ++ ds3 ++ [diagAfter (prevP tokens c) "Expected variable after \x22in\x22"],
           .error c)
        else
          match variableP tokens fuel c with
          | (ds4, .error ce) => (ds1 ++ ds2 ++ ds3 ++ ds4, .error ce)
          | (ds4, .ok (arrayVar, c)) =>
            match consumeP tokens c .CLOSE_PAREN "Expected \x22)\x22 after expression" with
            | (ds5, .error ce) => (ds1 ++ ds2 ++ ds3 ++ ds4 ++ ds5, .error ce)
            | (ds5, .ok (_, c)) =>
              match consumeP tokens c .CLOSE_EXPR "Expected \x22\x7d\x7d\x22 after \x22for\x22 statement" with
              | (ds6, .error ce) => (ds1 ++ ds2 ++ ds3 ++ ds4 ++ ds5 ++ ds6, .error ce)
              | (ds6, .ok (_, c2)) =>
                let (ds7, (nodes, c3)) := parseAt c2 (some .ENDFOR)
                let (m1, c4) := matchP tokens c3 .OPEN_EXPR
                let (m2, c5) := if m1 then matchP tokens c4 .ENDFOR else (false, c4)
                if m1 ∧ m2 then
                  (ds1 ++ ds2 ++ ds3 ++ ds4 ++ ds5 ++ ds6 ++ ds7,
                   .ok (.forStmt arrayVar nameToken.lexeme nodes, c5))
                else
                  (ds1 ++ ds2 ++ ds3 ++ ds4 ++ ds5 ++ ds6 ++ ds7 ++
                     [diagAt forToken "Unterminated for statement"],
                   .error c5)

/-- `Parser.parseExpr` (lines 213-239): dispatch on the token after `{{`;
a thrown parse error is caught and the parser resynchronises
(`syncFrom`), yielding no statement. -/
def parseExpr (parseAt : ParseAt) (tokens : List Token) (fuel : Nat) (c : Nat) :
    List Diag × (Option Stmt × Nat) :=
  match (peekP tokens c).type with
  | .IDENTIFIER =>
    match variableP tokens fuel c with
    | (ds, .ok (keys, c')) => (ds, (some (.varStmt keys), c'))
    | (ds, .error ce) => (ds, (none, syncFrom tokens ce))
  | .IF =>
    match ifStatement parseAt tokens fuel c with
    | (ds, .ok (stmt, c')) => (ds, (some stmt, c'))
    | (ds, .error ce) => (ds, (none, syncFrom tokens ce))
  | .NUMBER =>
    ([diagAt (peekP tokens c) "Expected expression before number"], (none, syncFrom tokens (c + 1)))
  | .CLOSE_EXPR =>
    ([diagAt (peekP tokens c) "Invalid empty expression"], (none, c + 1))
  | .FOR =>
    match forStatement parseAt tokens fuel c with
    | (ds, .ok (stmt, c')) => (ds, (some stmt, c'))
    | (ds, .error ce) => (ds, (none, syncFrom tokens ce))
  | _ => ([], (none, c))

/-- Should `parse`'s stopping predicate end the current body (`{{` followed
by the matching closing keyword)? -/
def stopPred (tokens : List Token) (c : Nat) : Option TokenType → Bool
  | none => false
  | some k => isNextP tokens c .OPEN_EXPR 0 && isNextP tokens c k 1

/-- `Parser.parse` (lines 241-273): the statement-sequence loop.  One
structural recursion on fuel serves the whole parser: nested bodies go
through `parseExpr` with `parseLoop tokens fuel` as the callback.  Tokens
with no switch case (stray `}}` etc.) are skipped, as in the source. -/
def parseLoop (tokens : List Token) : Nat → Nat → Option TokenType →
    List Diag × (List Stmt × Nat)
  | 0, c, _ => ([], ([], c))
  | fuel + 1, c, stopAt =>
    if (peekP tokens c).type = .EOF then ([], ([], c))
    else if stopPred tokens c stopAt then ([], ([], c))
    else
      let token := peekP tokens c
      let c1 := c + 1
      match token.type with
      | .LITERAL =>
        let (ds, (ns, c')) := parseLoop tokens fuel c1 stopAt
        (ds, (.literal token.lexeme :: ns, c'))
      | .OPEN_EXPR =>
        let (ds1, (stmtO, c2)) := parseExpr (parseLoop tokens fuel) tokens fuel c1
        match stmtO with
        | some stmt =>
          let (mc, c3) := matchP tokens c2 .CLOSE_EXPR
          let ds2 := if mc then ([] : List Diag)
            else [diagAfter (prevP tokens c2) "Expected closing \x22\x7d\x7d\x22"]
          let (ds3, (ns, c')) := parseLoop tokens fuel c3 stopAt
          (ds1 ++ ds2 ++ ds3, (stmt :: ns, c'))
        | none =>
          let (ds3, (ns, c')) := parseLoop tokens fuel c2 stopAt
          (ds1 ++ ds3, (ns, c'))
      | _ => parseLoop tokens fuel c1 stopAt

/-- The top-level `parser.parse()` call of `Compiler.compileFile`; the
fuel strictly dominates the recursion depth on lexer-produced token
lists. -/
def parseTokens (tokens : List Token) : List Stmt × List Diag :=
  let (ds, r) := parseLoop tokens (3 * tokens.length + 10) 0 none
  (r.1, ds)

/-! ## Compilation entry point (Compiler.compileFile) -/

/-- Scan and parse a source text, collecting all lexical and syntax
diagnostics in order (the writer-style rendering of the shared
`compiler.syntaxError` reporter). -/
def scanAndParse (src : String) : List Stmt × List Diag :=
  let (toks, lexDs) := scanTokens src.data
  let (stmts, parseDs) := parseTokens toks
  (stmts, lexDs ++ parseDs)

/-- `Compiler.compileFile` (lines 169-185) as a state transformer on the
instance's `hadErrors` flag: the flag is set by any `syntaxError` call and
never cleared, and a compile returns a view only when the flag is still
false afterwards.  The source checks `this.hadErrors`, which after the
scan/parse pass equals `prior flag || (some diagnostic was reported)`. -/
def compileFileSt (hadErrors : Bool) (src : String) : Option (List Stmt) × Bool :=
  let (stmts, ds) := scanAndParse src
  let had := hadErrors || !ds.isEmpty
  (if had then none else some stmts, had)

/-- `compileFile` on a freshly constructed `Compiler` (as the server and
the tests use it): the statement tree of the returned render closure, or
`none` when compilation failed. -/
def compileFile (src : String) : Option (List Stmt) :=
  (compileFileSt false src).1

/-! ## Specification-side helper notions used by the theorems -/

/-- Concatenation of a list of strings in order. -/
def concatStrs : List String → String
  | [] => ""
  | s :: rest => s ++ concatStrs rest

/-- The output component of a successful render (`""` for the exception
case, which the hypotheses of its uses exclude). -/
def okStr : Except Unit String → String
  | .ok s => s
  | .error _ => ""

/-- Is the logic expression a Unary node? -/
def isUnaryNode : LogicExpr → Bool
  | .unary _ _ => true
  | .binary _ _ _ => false

/-- Every Binary node in the expression has a Unary right child (the
left-associated chain shape the grammar promises). -/
def rightsUnary : LogicExpr → Bool
  | .unary _ _ => true
  | .binary _ l r => rightsUnary l && isUnaryNode r

/-- The source text contains no occurrence of the two-character expression
opener. -/
def noOpenExpr (src : String) : Prop := ¬ List.IsInfix ['\x7b', '\x7b'] src.data

instance noOpenExprDecidable (src : String) : Decidable (noOpenExpr src) :=
  inferInstanceAs (Decidable (¬ List.IsInfix ['\x7b', '\x7b'] src.data))

/-- Fuelled worker for `chunks`; the fuel dominates the list length. -/
def chunksF : Nat → List Char → List (List Char)
  | 0, _ => []
  | _ + 1, [] => []
  | fuel + 1, c :: rest =>
    (c :: rest.takeWhile (fun x => x ≠ '\x7b')) ::
      chunksF fuel (rest.dropWhile (fun x => x ≠ '\x7b'))

/-- The literal pieces the scanner cuts a `{{`-free text into: a new piece
starts at the beginning and immediately before every `\x7b` (the top scan
loop consumes one char before `scanLiteral` stops at the next brace). -/
def chunks (l : List Char) : List (List Char) := chunksF (l.length + 1) l

/-- Kind/lexeme projection of a token (positions are irrelevant to the
statement-tree claims). -/
def tokenKind (t : Token) : TokenType × String := (t.type, t.lexeme)

/-- A token at a fixed dummy position (for parser-level statements whose
claims do not involve positions). -/
def mkTok (ty : TokenType) (lexeme : String) : Token := ⟨ty, lexeme, 1, (1, 1)⟩

mutual

/-- The Literal contents contributed by one statement, in document order
(descending into if/for bodies). -/
def stmtLits : Stmt → List String
  | .literal s => [s]
  | .varStmt _ => []
  | .ifStmt _ body => stmtsLits body
  | .forStmt _ _ body => stmtsLits body

/-- The Literal contents of a statement tree, in document order. -/
def stmtsLits : List Stmt → List String
  | [] => []
  | s :: rest => stmtLits s ++ stmtsLits rest

end

/-- The lexemes of the LITERAL tokens of a token sequence, in order. -/
def litLexemes : List Token → List String
  | [] => []
  | t :: rest =>
    if t.type = TokenType.LITERAL then t.lexeme :: litLexemes rest else litLexemes rest

/-- The tokens a parser run consumed between two cursor positions. -/
def tokSlice (tokens : List Token) (c c' : Nat) : List Token :=
  (tokens.drop c).take (c' - c)

/-- The cursor position an `Except`-style parser result left off at (the
new cursor on success, the throw position on an exception). -/
def cursorAfter {α : Type} : Except Nat (α × Nat) → Nat
  | .ok (_, c') => c'
  | .error ce => ce

/-- No token of the list is an EOF token. -/
def noEofTokens (ts : List Token) : Prop := ∀ t ∈ ts, t.type ≠ TokenType.EOF

/-- Literal contents of an optional statement (`parseExpr`'s result). -/
def optLits : Option Stmt → List String
  | some s => stmtLits s
  | none => []

/-! ## Theorems -/

/-- C1.  For a Binary `&&`/`||` whose left operand evaluates without an
exception, the whole expression's diagnostics are exactly the left
operand's followed by the right operand's — the right operand is resolved
(diagnostics included) regardless of the left value's truthiness, with no
short-circuit — and the operator is applied only after both evaluations. -/
theorem c1_eager_binary_and_or (op : Operators) (l r : LogicExpr) (args : Value)
    (log1 : List String) (v1 : Value)
    (hop : op = Operators.AND ∨ op = Operators.OR)
    (h : compileLogicExpr l args = (log1, Except.ok v1)) :
    compileLogicExpr (.binary op l r) args =
      (log1 ++ (compileLogicExpr r args).1,
        match (compileLogicExpr r args).2 with
        | .error e => .error e
        | .ok v2 =>
          .ok (if op = Operators.AND then (if truthy v1 then v2 else v1)
               else (if truthy v1 then v1 else v2))) := by
  rcases hop with rfl | rfl <;>
  · simp only [compileLogicExpr, h]
    rcases hr : compileLogicExpr r args with ⟨log2, r2⟩
    cases r2 <;> simp

/-- C1 witness: with both operands missing variables and the left already
falsy, the right operand's diagnostic is still emitted. -/
theorem c1_witness :
    compileLogicExpr
        (.binary .AND (.unary (.varV ["x"]) false) (.unary (.varV ["y"]) false))
        (.vObj []) =
      (["[ERROR] \"x\" is undefined", "[ERROR] \"y\" is undefined"], .ok .vUndefined) :=
  (c1_eager_binary_and_or .AND (.unary (.varV ["x"]) false) (.unary (.varV ["y"]) false)
    (.vObj []) ["[ERROR] \"x\" is undefined"] .vUndefined (Or.inl rfl) rfl).trans rfl

/-- C2 counterexample: evaluating `1 && 2` yields the number `2` — one of
the operand values and not a boolean — refuting the claim that `AND`/`OR`
produce a boolean. -/
theorem c2_counterexample :
    compileLogicExpr (.binary .AND (.unary (.num 1) false) (.unary (.num 2) false))
        (.vObj []) = ([], .ok (.vNum 2)) ∧
    Value.vNum 2 ≠ Value.vBool true ∧ Value.vNum 2 ≠ Value.vBool false :=
  ⟨rfl, nofun, nofun⟩

/-- C2 amended.  When both operands evaluate without exception, `AND`
returns the left value if it is falsy and otherwise the right value, and
`OR` returns the left value if it is truthy and otherwise the right value
— the native JavaScript logical operators: the result is always one of
the two operand values (hence a boolean only when that operand is). -/
theorem c2_native_logical (l r : LogicExpr) (args : Value)
    (log1 log2 : List String) (v1 v2 : Value)
    (h1 : compileLogicExpr l args = (log1, Except.ok v1))
    (h2 : compileLogicExpr r args = (log2, Except.ok v2)) :
    compileLogicExpr (.binary .AND l r) args =
        (log1 ++ log2, .ok (if truthy v1 then v2 else v1)) ∧
    compileLogicExpr (.binary .OR l r) args =
        (log1 ++ log2, .ok (if truthy v1 then v1 else v2)) ∧
    ((if truthy v1 then v2 else v1) = v1 ∨ (if truthy v1 then v2 else v1) = v2) ∧
    ((if truthy v1 then v1 else v2) = v1 ∨ (if truthy v1 then v1 else v2) = v2) := by
  refine ⟨?_, ?_, ?_, ?_⟩
  · simp only [compileLogicExpr, h1, h2]
  · simp only [compileLogicExpr, h1, h2]
  · by_cases ht : truthy v1 <;> simp [ht]
  · by_cases ht : truthy v1 <;> simp [ht]

/-- C2 amended witness at `1 && 2` / `1 || 2`. -/
theorem c2_witness :
    compileLogicExpr (.binary .AND (.unary (.num 1) false) (.unary (.num 2) false))
        (.vObj []) = ([], .ok (.vNum 2)) ∧
    compileLogicExpr (.binary .OR (.unary (.num 1) false) (.unary (.num 2) false))
        (.vObj []) = ([], .ok (.vNum 1)) := by
  have h := c2_native_logical (.unary (.num 1) false) (.unary (.num 2) false)
    (.vObj []) [] [] (.vNum 1) (.vNum 2) rfl rfl
  exact ⟨h.1.trans rfl, h.2.1.trans rfl⟩

/-- C3 (code bug).  The template `"{{ foo.bar }}"` compiles cleanly, but
rendering it against the context `{foo: null}` throws (modelled
`Except.error`): `typeof null === "object"` passes the composite guard in
`getVarValue` and the subsequent `null["bar"]` access is a TypeError, so
the render aborts instead of completing with a string as the claim (and
spec) require. -/
theorem c3_null_context_render_throws :
    compileFile "\x7b\x7b foo.bar \x7d\x7d" = some [.varStmt ["foo", "bar"]] ∧
    runView [.varStmt ["foo", "bar"]] (.vObj [("foo", .vNull)]) = ([], .error ()) :=
  ⟨rfl, rfl⟩

/-- C4.  A (fresh-compiler) compile returns a render view exactly when the
scan/parse pass of that source reported zero diagnostics; any diagnostic
forces `null`, independent of the statement tree that was still built. -/
theorem c4_view_iff_no_diagnostics (src : String) :
    (compileFile src).isSome ↔ (scanAndParse src).2 = [] := by
  unfold compileFile compileFileSt
  rcases h : scanAndParse src with ⟨stmts, ds⟩
  cases ds <;> simp [h]

/-- C10.  Once `hadErrors` is set on a compiler instance it is never
cleared: every later `compileFile` on that instance returns no view (and
leaves the flag set), whatever the new source is. -/
theorem c10_failure_is_sticky (had : Bool) (src : String) (h : had = true) :
    (compileFileSt had src).1 = none ∧ (compileFileSt had src).2 = true := by
  subst h
  unfold compileFileSt
  simp

/-- C10 witness: after compiling the erroneous `"{{ 17 }}"`, compiling the
perfectly clean `"hello"` on the same instance still yields no view. -/
theorem c10_witness :
    (compileFileSt (compileFileSt false "\x7b\x7b 17 \x7d\x7d").2 "hello").1 = none :=
  (c10_failure_is_sticky (compileFileSt false "\x7b\x7b 17 \x7d\x7d").2 "hello" rfl).1

/-- Whenever the variable-resolution walk logs a diagnostic, it returns
`undefined` (never a half-resolved value and never an exception). -/
theorem getVarValueAux_logged_undefined :
    ∀ (keys : List String) (path : String) (first : Bool) (obj : Value),
      (getVarValueAux keys path first obj).1 ≠ [] →
      (getVarValueAux keys path first obj).2 = .ok .vUndefined
  | [], _, _, _, h => absurd rfl h
  | key :: rest, path, first, obj, h => by
    by_cases h1 : typeofIsObject obj = false
    · simp [getVarValueAux, h1]
    · cases hj : jsIndex obj key with
      | error e =>
        exfalso
        apply h
        simp [getVarValueAux, h1, hj]
      | ok v =>
        by_cases h2 : isUndefined v
        · simp [getVarValueAux, h1, hj, h2]
        · by_cases h3 : rest.isEmpty
          · exfalso
            apply h
            simp [getVarValueAux, h1, hj, h2, h3]
          · have ih := getVarValueAux_logged_undefined rest
              (pathAppend first path key) false v
            simp only [getVarValueAux, h1, hj, h2, h3] at h ⊢
            simp only [if_false, Bool.false_eq_true, if_neg] at h ⊢
            exact ih (by simpa using h)

/-- C7.  `"{{ foo }}"` against `{}` compiles to a single variable
reference, renders exactly `"undefined"` and logs exactly one diagnostic
naming `foo`; in general a resolution that logged a failure yields the
`undefined` value and a variable statement embeds it as the literal text
`"undefined"`. -/
theorem c7_missing_variable_renders_undefined :
    (compileFile "\x7b\x7b foo \x7d\x7d" = some [.varStmt ["foo"]]) ∧
    (runView [.varStmt ["foo"]] (.vObj []) =
      (["[ERROR] \"foo\" is undefined"], .ok "undefined")) ∧
    (∀ (keys : List String) (args : Value), (getVarValue keys args).1 ≠ [] →
      (getVarValue keys args).2 = .ok .vUndefined) ∧
    (∀ (keys : List String) (args : Value) (log : List String) (fuel : Nat),
      getVarValue keys args = (log, .ok .vUndefined) →
      compileStatements (fuel + 1) [.varStmt keys] args = (log, .ok "undefined")) := by
  refine ⟨rfl, rfl, ?_, ?_⟩
  · intro keys args h
    exact getVarValueAux_logged_undefined keys "" true args h
  · intro keys args log fuel h
    simp [compileStatements, h, Except.map, jsToString]

/-- C7 witness: a concrete failed resolution yields `undefined` and the
statement renders the text `"undefined"`. -/
theorem c7_witness :
    (getVarValue ["zz"] (.vObj [])).2 = .ok .vUndefined ∧
    compileStatements 1 [.varStmt ["zz"]] (.vObj []) =
      (["[ERROR] \"zz\" is undefined"], .ok "undefined") :=
  ⟨c7_missing_variable_renders_undefined.2.2.1 ["zz"] (.vObj []) (by decide),
   c7_missing_variable_renders_undefined.2.2.2 ["zz"] (.vObj [])
     ["[ERROR] \"zz\" is undefined"] 0 rfl⟩

/-- `Parser.unary` only ever constructs Unary nodes. -/
theorem unaryP_isUnary (tokens : List Token) (fuel c : Nat) (ds : List Diag)
    (e : LogicExpr) (c' : Nat)
    (h : unaryP tokens fuel c = (ds, Except.ok (e, c'))) :
    isUnaryNode e = true := by
  unfold unaryP at h
  rcases hm : matchP tokens c .BANG with ⟨neg, c1⟩
  rw [hm] at h
  dsimp only at h
  rcases hp : primaryP tokens fuel c1 with ⟨ds2, r⟩
  rw [hp] at h
  cases r with
  | error ce => simp at h
  | ok pr =>
    simp only [Prod.mk.injEq, Except.ok.injEq] at h
    rcases h with ⟨-, h2, -⟩
    rw [← h2]
    rfl

/-- The operator-chaining loop preserves the right-child-is-Unary shape:
each step wraps the expression so far as the left child of a new Binary
whose right child comes from `Parser.unary`. -/
theorem conditionLoop_rightsUnary (tokens : List Token) :
    ∀ (fuel c : Nat) (e : LogicExpr) (ds : List Diag) (e' : LogicExpr) (c' : Nat),
      rightsUnary e = true →
      conditionLoop tokens fuel c e = (ds, Except.ok (e', c')) →
      rightsUnary e' = true
  | 0, c, e, ds, e', c', he, h => by
    simp only [conditionLoop, Prod.mk.injEq, Except.ok.injEq] at h
    rcases h with ⟨-, h2, -⟩
    rw [← h2]
    exact he
  | fuel + 1, c, e, ds, e', c', he, h => by
    rw [conditionLoop] at h
    cases hop : tokenToOp (peekP tokens c).type with
    | none =>
      rw [hop] at h
      simp only [Prod.mk.injEq, Except.ok.injEq] at h
      rcases h with ⟨-, h2, -⟩
      rw [← h2]
      exact he
    | some op =>
      simp only [hop] at h
      rcases hu : unaryP tokens fuel (c + 1) with ⟨dsu, ru⟩
      rw [hu] at h
      cases ru with
      | error ce => simp at h
      | ok pr =>
        rcases pr with ⟨right, c2⟩
        rcases hl : conditionLoop tokens fuel c2 (.binary op e right) with ⟨ds2, r2⟩
        simp only [hl] at h
        cases r2 with
        | error ce => simp at h
        | ok pr2 =>
          rcases pr2 with ⟨e2, c3⟩
          simp only [Prod.mk.injEq, Except.ok.injEq] at h
          rcases h with ⟨-, h2, -⟩
          have hr : rightsUnary (.binary op e right) = true := by
            have hru := unaryP_isUnary tokens fuel (c + 1) dsu right c2 hu
            simp [rightsUnary, he, hru]
          have := conditionLoop_rightsUnary tokens fuel c2 (.binary op e right) ds2 e2 c3 hr hl
          rw [← h2]
          exact this

/-- C5.  Every LogicExpr produced by `Parser.condition` has a Unary right
child at every Binary node, and a chain `a && b || c` parses as the
left-associated `(a && b) || c` with no precedence distinction between
`&&` and `||`. -/
theorem c5_condition_right_child_unary :
    (∀ (tokens : List Token) (fuel c : Nat) (ds : List Diag) (e : LogicExpr) (c' : Nat),
      condition tokens fuel c = (ds, Except.ok (e, c')) → rightsUnary e = true) ∧
    condition [mkTok .IDENTIFIER "a", mkTok .DOUBLE_AND "&&", mkTok .IDENTIFIER "b",
               mkTok .OR "||", mkTok .IDENTIFIER "c", mkTok .EOF ""] 20 0 =
      ([], .ok (.binary .OR
          (.binary .AND (.unary (.varV ["a"]) false) (.unary (.varV ["b"]) false))
          (.unary (.varV ["c"]) false), 5)) := by
  constructor
  · intro tokens fuel c ds e c' h
    unfold condition at h
    rcases hu : unaryP tokens fuel c with ⟨dsu, ru⟩
    rw [hu] at h
    cases ru with
    | error ce => simp at h
    | ok pr =>
      rcases pr with ⟨e1, c1⟩
      rcases hl : conditionLoop tokens fuel c1 e1 with ⟨ds2, r2⟩
      simp only [hl] at h
      cases r2 with
      | error ce => simp at h
      | ok pr2 =>
        rcases pr2 with ⟨e2, c2⟩
        simp only [Prod.mk.injEq, Except.ok.injEq] at h
        rcases h with ⟨-, h2, -⟩
        have h1 : rightsUnary e1 = true := by
          have := unaryP_isUnary tokens fuel c dsu e1 c1 hu
          cases e1 with
          | unary _ _ => rfl
          | binary _ _ _ => simp [isUnaryNode] at this
        have := conditionLoop_rightsUnary tokens fuel c1 e1 ds2 e2 c2 h1 hl
        rw [← h2]
        exact this
  · rfl

/-- C5 witness: the invariant applied to the concrete parse of
`a && b || c`. -/
theorem c5_witness :
    rightsUnary (.binary .OR
      (.binary .AND (.unary (.varV ["a"]) false) (.unary (.varV ["b"]) false))
      (.unary (.varV ["c"]) false)) = true :=
  c5_condition_right_child_unary.1
    [mkTok .IDENTIFIER "a", mkTok .DOUBLE_AND "&&", mkTok .IDENTIFIER "b",
     mkTok .OR "||", mkTok .IDENTIFIER "c", mkTok .EOF ""] 20 0 []
    (.binary .OR
      (.binary .AND (.unary (.varV ["a"]) false) (.unary (.varV ["b"]) false))
      (.unary (.varV ["c"]) false)) 5
    c5_condition_right_child_unary.2

/-- When every per-item render succeeds, the loop of `compileFor` produces
the concatenation of the per-item outputs (appended to the accumulator)
and the per-item logs in iteration order. -/
theorem compileForLoop_all_ok (r1 : Value → RenderRes) :
    ∀ (items : List Value) (res : String),
      (∀ it ∈ items, ∃ s, (r1 it).2 = Except.ok s) →
      compileForLoop r1 items res =
        ((items.map (fun it => (r1 it).1)).flatten,
         .ok (res ++ concatStrs (items.map (fun it => okStr (r1 it).2))))
  | [], res, _ => by simp [compileForLoop, concatStrs]
  | item :: rest, res, hall => by
    obtain ⟨s, hs⟩ := hall item (List.mem_cons_self item rest)
    have ih := compileForLoop_all_ok r1 rest (res ++ s)
      (fun it hit => hall it (List.mem_cons_of_mem item hit))
    rcases hr : r1 item with ⟨log, r⟩
    rw [hr] at hs
    dsimp at hs
    subst hs
    simp only [compileForLoop, hr, ih, List.map_cons, List.flatten_cons, okStr, concatStrs]
    rw [String.append_assoc]

/-- C6.  With the iterable resolved without exception: a falsy resolution
renders empty text; a truthy non-array logs the not-an-array diagnostic
and renders empty text; an array renders the body once per element, in
order, against the enclosing context extended with the item name bound to
the element — and that binding shadows any existing one. -/
theorem c6_for_statement_semantics (fuel : Nat) (arrayVar : List String)
    (itemName : String) (body : List Stmt) (args : Value)
    (log0 : List String) (v : Value)
    (h : getVarValue arrayVar args = (log0, Except.ok v)) :
    (truthy v = false →
      compileFor (compileStatements fuel) arrayVar itemName body args = (log0, .ok "")) ∧
    (truthy v = true → (∀ items, v ≠ .vArr items) →
      compileFor (compileStatements fuel) arrayVar itemName body args =
        (log0 ++ ["[ERROR] given var is not an array"], .ok "")) ∧
    (∀ items, v = .vArr items →
      (∀ it ∈ items, ∃ s,
        (compileStatements fuel body (extendCtx args itemName it)).2 = Except.ok s) →
      compileFor (compileStatements fuel) arrayVar itemName body args =
        (log0 ++ (items.map (fun it =>
            (compileStatements fuel body (extendCtx args itemName it)).1)).flatten,
         .ok (concatStrs (items.map (fun it =>
            okStr (compileStatements fuel body (extendCtx args itemName it)).2))))) ∧
    (∀ (a : Value) (n : String) (x : Value), jsIndex (extendCtx a n x) n = .ok x) := by
  refine ⟨?_, ?_, ?_, ?_⟩
  · intro ht
    simp [compileFor, h, ht]
  · intro ht hna
    cases v with
    | vNull => simp [truthy] at ht
    | vUndefined => simp [truthy] at ht
    | vArr items => exact absurd rfl (hna items)
    | vBool b => simp [compileFor, h, ht]
    | vNum n => simp [compileFor, h, ht]
    | vStr s => simp [compileFor, h, ht]
    | vObj fs => simp [compileFor, h, ht]
  · intro items hv hall
    subst hv
    simp only [compileFor, h]
    rw [compileForLoop_all_ok _ items "" hall]
    simp [truthy]
  · intro a n x
    simp [extendCtx, jsIndex, lookupFirst]

/-- C6 witness: a two-element loop rendering its item variable
concatenates the per-item renders in order. -/
theorem c6_witness :
    compileFor (compileStatements 3) ["items"] "x" [.varStmt ["x"]]
        (.vObj [("items", .vArr [.vStr "a", .vStr "b"])]) = ([], .ok "ab") := by
  have h := (c6_for_statement_semantics 3 ["items"] "x" [.varStmt ["x"]]
    (.vObj [("items", .vArr [.vStr "a", .vStr "b"])])
    [] (.vArr [.vStr "a", .vStr "b"]) rfl).2.2.1
    [.vStr "a", .vStr "b"] rfl ?_
  · exact h.trans rfl
  · intro it hit
    cases hit with
    | head => exact ⟨"a", rfl⟩
    | tail _ h2 =>
      cases h2 with
      | head => exact ⟨"b", rfl⟩
      | tail _ h3 => cases h3

/-! ### Scanner lemmas for the literal-run claims -/

/-- Dropping a satisfying prefix never lengthens a list. -/
theorem dropWhile_length_le {α : Type} (p : α → Bool) :
    ∀ l : List α, (l.dropWhile p).length ≤ l.length
  | [] => Nat.le_refl 0
  | x :: xs => by
    by_cases h : p x
    · simpa [List.dropWhile, h] using Nat.le_succ_of_le (dropWhile_length_le p xs)
    · simp [List.dropWhile, h]

/-- `dropWhile` drops exactly the `takeWhile` prefix. -/
theorem dropWhile_eq_drop_takeWhile {α : Type} (p : α → Bool) :
    ∀ l : List α, l.dropWhile p = l.drop (l.takeWhile p).length
  | [] => rfl
  | x :: xs => by
    by_cases h : p x
    · simp [List.dropWhile, List.takeWhile, h, dropWhile_eq_drop_takeWhile p xs]
    · simp [List.dropWhile, List.takeWhile, h]

/-- Taking back the `takeWhile` prefix recovers it. -/
theorem take_length_takeWhile {α : Type} (p : α → Bool) :
    ∀ l : List α, l.take (l.takeWhile p).length = l.takeWhile p
  | [] => rfl
  | x :: xs => by
    by_cases h : p x
    · simp [List.takeWhile, h, take_length_takeWhile p xs]
    · simp [List.takeWhile, h]

/-- A successful index lookup exposes the list as `c ::` its tail from
there. -/
theorem drop_cons_of_get {α : Type} :
    ∀ (l : List α) (n : Nat) (c : α), l.get? n = some c → l.drop n = c :: l.drop (n + 1)
  | [], n, c, h => by simp at h
  | x :: xs, 0, c, h => by
    simp only [List.get?] at h
    injection h with h
    simp [h]
  | x :: xs, n + 1, c, h => by
    simp only [List.get?] at h
    simpa using drop_cons_of_get xs n c h

/-- `getD` through `drop`. -/
theorem getD_drop {α : Type} (l : List α) (n : Nat) (d : α) :
    l.getD n d = (l.drop n).getD 0 d := by
  simp [List.getD, List.getElem?_drop]

/-- Two adjacent positions holding given characters witness an infix. -/
theorem infix_of_adjacent {α : Type} (l : List α) (p : Nat) (c1 c2 : α)
    (h1 : l.get? p = some c1) (h2 : l.get? (p + 1) = some c2) :
    List.IsInfix [c1, c2] l := by
  refine ⟨l.take p, l.drop (p + 2), ?_⟩
  have d1 := drop_cons_of_get l p c1 h1
  have d2 := drop_cons_of_get l (p + 1) c2 h2
  have hmid : c1 :: c2 :: l.drop (p + 2) = l.drop p := by rw [d1, d2]
  calc l.take p ++ [c1, c2] ++ l.drop (p + 2)
      = l.take p ++ (c1 :: c2 :: l.drop (p + 2)) := by simp
    _ = l.take p ++ l.drop p := by rw [hmid]
    _ = l := List.take_append_drop p l

/-- Field effects of `Lexer.advance`: the cursor moves one right, the
consumed char is the peeked one, and `start`/`tokens`/`errors` are
untouched. -/
theorem advanceL_fields (buf : List Char) (st : LexSt) :
    (advanceL buf st).1 = buf.get? st.current ∧
    ((advanceL buf st).2).current = st.current + 1 ∧
    ((advanceL buf st).2).start = st.start ∧
    ((advanceL buf st).2).tokens = st.tokens ∧
    ((advanceL buf st).2).errors = st.errors := by
  unfold advanceL
  dsimp only
  split <;> simp

/-- The literal scan loop stops exactly at the next `\x7b` (or the end),
leaving `start`, `tokens` and `errors` untouched. -/
theorem scanLiteralLoop_spec (buf : List Char) :
    ∀ (fuel : Nat) (st : LexSt), buf.length - st.current < fuel →
      (scanLiteralLoop buf fuel st).current =
          st.current + ((buf.drop st.current).takeWhile (fun c => c ≠ '\x7b')).length ∧
      (scanLiteralLoop buf fuel st).start = st.start ∧
      (scanLiteralLoop buf fuel st).tokens = st.tokens ∧
      (scanLiteralLoop buf fuel st).errors = st.errors
  | 0, st, hf => absurd hf (by omega)
  | fuel + 1, st, hf => by
    by_cases hcond : peekL buf st ≠ some '\x7b' ∧ ¬ lexAtEnd buf st
    · have hp := hcond.1
      have hend := hcond.2
      have hlt : st.current < buf.length := by
        simp only [lexAtEnd, decide_eq_true_eq, Nat.not_le] at hend
        exact hend
      obtain ⟨c, hc⟩ : ∃ c, buf.get? st.current = some c :=
        ⟨buf.get ⟨st.current, hlt⟩, List.get?_eq_get hlt⟩
      have hcne : c ≠ '\x7b' := by
        intro hcc
        exact hp (by rw [peekL, hc, hcc])
      have hdrop := drop_cons_of_get buf st.current c hc
      have hadv := advanceL_fields buf st
      have ih := scanLiteralLoop_spec buf fuel (advanceL buf st).2
        (by rw [hadv.2.1]; omega)
      rw [scanLiteralLoop, if_pos hcond]
      refine ⟨?_, ?_, ?_, ?_⟩
      · rw [ih.1, hadv.2.1, hdrop]
        simp [List.takeWhile_cons, hcne]
        omega
      · rw [ih.2.1, hadv.2.2.1]
      · rw [ih.2.2.1, hadv.2.2.2.1]
      · rw [ih.2.2.2, hadv.2.2.2.2]
    · rw [scanLiteralLoop, if_neg hcond]
      refine ⟨?_, rfl, rfl, rfl⟩
      rcases Decidable.not_and_iff_or_not.mp hcond with hp | hend
      · have hp2 : peekL buf st = some '\x7b' := by
          by_contra hne
          exact hp hne
        rw [peekL] at hp2
        rw [drop_cons_of_get buf st.current _ hp2]
        simp [List.takeWhile_cons]
      · have hle : buf.length ≤ st.current := by
          simp only [lexAtEnd, decide_eq_true_eq] at hend
          omega
        rw [List.drop_eq_nil_of_le hle]
        simp

/-- `chunksF` is independent of the fuel once it exceeds the list length. -/
theorem chunksF_fuel_irrel :
    ∀ (f1 f2 : Nat) (l : List Char), l.length < f1 → l.length < f2 →
      chunksF f1 l = chunksF f2 l
  | _ + 1, _ + 1, [], _, _ => rfl
  | f1 + 1, f2 + 1, c :: rest, h1, h2 => by
    have hd := dropWhile_length_le (fun x : Char => x ≠ '\x7b') rest
    have ih := chunksF_fuel_irrel f1 f2 (rest.dropWhile (fun x => x ≠ '\x7b'))
      (by simp at h1; omega) (by simp at h2; omega)
    simp only [chunksF]
    exact congrArg _ ih

/-- Unfolding `chunks`: the first piece is the head char plus the run up
to the next `\x7b`, and the rest are the pieces of what remains. -/
theorem chunks_cons (c : Char) (rest : List Char) :
    chunks (c :: rest) =
      (c :: rest.takeWhile (fun x => x ≠ '\x7b')) ::
        chunks (rest.dropWhile (fun x => x ≠ '\x7b')) := by
  have hd := dropWhile_length_le (fun x : Char => x ≠ '\x7b') rest
  unfold chunks
  simp only [List.length_cons, chunksF]
  rw [chunksF_fuel_irrel (rest.length + 1) ((rest.dropWhile (fun x => x ≠ '\x7b')).length + 1)
    (rest.dropWhile (fun x => x ≠ '\x7b')) (by omega) (by omega)]

/-- `chunks` of a nonempty list is nonempty. -/
theorem chunks_ne_nil (x : Char) (l : List Char) : chunks (x :: l) ≠ [] := by
  rw [chunks_cons]
  simp

/-- The pieces concatenate back to the original list: no literal text is
lost by chunking. -/
theorem chunks_flatten : ∀ l : List Char, (chunks l).flatten = l
  | [] => rfl
  | c :: rest => by
    rw [chunks_cons]
    have ih := chunks_flatten (rest.dropWhile (fun x => x ≠ '\x7b'))
    simp only [List.flatten_cons, ih]
    simp [List.takeWhile_append_dropWhile]
termination_by l => l.length
decreasing_by
  simp only [List.length_cons]
  exact Nat.lt_succ_of_le (dropWhile_length_le _ rest)

/-- There are at most as many pieces as characters. -/
theorem chunks_length_le : ∀ l : List Char, (chunks l).length ≤ l.length
  | [] => Nat.le_refl 0
  | c :: rest => by
    rw [chunks_cons]
    have ih := chunks_length_le (rest.dropWhile (fun x => x ≠ '\x7b'))
    have hd := dropWhile_length_le (fun x : Char => x ≠ '\x7b') rest
    simp only [List.length_cons]
    omega
termination_by l => l.length
decreasing_by
  simp only [List.length_cons]
  exact Nat.lt_succ_of_le (dropWhile_length_le _ rest)

/-- Every piece is nonempty. -/
theorem chunks_mem_ne_nil : ∀ (l ch : List Char), ch ∈ chunks l → ch ≠ []
  | [], ch, h => by simp [chunks, chunksF] at h
  | c :: rest, ch, h => by
    rw [chunks_cons] at h
    rcases List.mem_cons.mp h with h1 | h1
    · simp [h1]
    · exact chunks_mem_ne_nil (rest.dropWhile (fun x => x ≠ '\x7b')) ch h1
termination_by l _ => l.length
decreasing_by
  simp only [List.length_cons]
  exact Nat.lt_succ_of_le (dropWhile_length_le _ rest)

/-- Field effects of `Lexer.addToken` with a default lexeme. -/
theorem addToken_fields (buf : List Char) (st : LexSt) (ty : TokenType) :
    (addToken buf st ty none).tokens =
        st.tokens ++ [⟨ty, sliceL buf st.start st.current, st.line, (st.colStart, st.colCurrent)⟩] ∧
    (addToken buf st ty none).errors = st.errors ∧
    (addToken buf st ty none).current = st.current ∧
    (addToken buf st ty none).start = st.current := by
  simp [addToken]

/-- A satisfying prefix never outgrows the list. -/
theorem takeWhile_length_le {α : Type} (p : α → Bool) :
    ∀ l : List α, (l.takeWhile p).length ≤ l.length
  | [] => Nat.le_refl 0
  | x :: xs => by
    by_cases h : p x
    · simpa [List.takeWhile, h] using takeWhile_length_le p xs
    · simp [List.takeWhile, h]

/-- Effect of `Lexer.scanLiteral` from a state whose pending slice starts
one char back (`start = current - 1`, as the top scan loop arranges):
exactly one LITERAL token is appended whose lexeme is that char plus the
run up to the next `\x7b`, no diagnostics are added, and the slice anchors
re-sync to the stop position. -/
theorem scanLiteral_spec (buf : List Char) (fuel : Nat) (st : LexSt) (ch : Char)
    (hc : buf.get? (st.start) = some ch)
    (hcur : st.current = st.start + 1)
    (hf : buf.length - st.current < fuel) :
    (scanLiteral buf fuel st).tokens.map tokenKind =
        st.tokens.map tokenKind ++
          [(TokenType.LITERAL,
            String.mk (ch :: (buf.drop st.current).takeWhile (fun c => c ≠ '\x7b')))] ∧
    (scanLiteral buf fuel st).errors = st.errors ∧
    (scanLiteral buf fuel st).current =
        st.current + ((buf.drop st.current).takeWhile (fun c => c ≠ '\x7b')).length ∧
    (scanLiteral buf fuel st).start = (scanLiteral buf fuel st).current := by
  have hloop := scanLiteralLoop_spec buf fuel st hf
  have hadd := addToken_fields buf (scanLiteralLoop buf fuel st) .LITERAL
  have hslice : sliceL buf (scanLiteralLoop buf fuel st).start
      (scanLiteralLoop buf fuel st).current =
      String.mk (ch :: (buf.drop st.current).takeWhile (fun c => c ≠ '\x7b')) := by
    rw [hloop.2.1, hloop.1, hcur]
    unfold sliceL
    have hd : buf.drop st.start = ch :: buf.drop (st.start + 1) :=
      drop_cons_of_get buf st.start ch hc
    rw [hd]
    have harith : st.start + 1 + ((buf.drop (st.start + 1)).takeWhile
        (fun c => c ≠ '\x7b')).length - st.start =
        ((buf.drop (st.start + 1)).takeWhile (fun c => c ≠ '\x7b')).length + 1 := by omega
    rw [harith]
    rw [List.take_succ_cons]
    rw [take_length_takeWhile]
  unfold scanLiteral
  refine ⟨?_, ?_, ?_, ?_⟩
  · rw [hadd.1, hslice, hloop.2.2.1]
    simp [tokenKind]
  · rw [hadd.2.1, hloop.2.2.2]
  · rw [hadd.2.2.1, hloop.1]
  · rw [hadd.2.2.2, hadd.2.2.1]

/-- The top scan loop on a source with no `{{`: every iteration takes the
literal branch, producing exactly the `chunks` pieces as LITERAL tokens,
an EOF token, and no diagnostics. -/
theorem scanTokensLoop_noDouble (buf : List Char)
    (hnd : ¬ List.IsInfix ['\x7b', '\x7b'] buf) :
    ∀ (fuel : Nat) (st : LexSt),
      st.start = st.current → st.current ≤ buf.length → buf.length - st.current < fuel →
      (scanTokensLoop buf fuel st).tokens.map tokenKind =
        st.tokens.map tokenKind ++
          ((chunks (buf.drop st.current)).map (fun ch => (TokenType.LITERAL, String.mk ch)) ++
          [(TokenType.EOF, "")]) ∧
      (scanTokensLoop buf fuel st).errors = st.errors
  | 0, st, _, _, hf => absurd hf (by omega)
  | fuel + 1, st, hs, hle, hf => by
    rw [scanTokensLoop]
    by_cases hend : lexAtEnd buf st
    · rw [if_pos hend]
      have hcur : buf.length ≤ st.current := by
        simpa [lexAtEnd] using hend
      have hdrop : buf.drop st.current = [] := List.drop_eq_nil_of_le hcur
      have ha := addToken_fields buf st .EOF
      refine ⟨?_, ha.2.1⟩
      rw [ha.1, hdrop]
      have hlex : sliceL buf st.start st.current = "" := by
        rw [hs]
        simp [sliceL]
      simp [chunks, chunksF, tokenKind, hlex]
    · rw [if_neg hend]
      have hlt : st.current < buf.length := by
        simp only [lexAtEnd, decide_eq_true_eq] at hend
        omega
      have hc : buf.get? st.current = some (buf.get ⟨st.current, hlt⟩) := List.get?_eq_get hlt
      rcases ha : advanceL buf st with ⟨c, st1⟩
      have hadv := advanceL_fields buf st
      rw [ha] at hadv
      dsimp only at hadv
      obtain ⟨hc1, hcur1, hstart1, htok1, herr1⟩ := hadv
      -- In every branch the body is `scanLiteral buf fuel st1`.
      have hbody :
          (if c = some '\x7b' then
            match matchL buf st1 '\x7b' with
            | (m, st2) =>
              if m then scanExpr buf fuel (addToken buf st2 .OPEN_EXPR none)
              else scanLiteral buf fuel st2
          else scanLiteral buf fuel st1) = scanLiteral buf fuel st1 := by
        by_cases hcc : c = some '\x7b'
        · rw [if_pos hcc]
          rcases hm : matchL buf st1 '\x7b' with ⟨m, st2⟩
          cases m with
          | true =>
            exfalso
            have hpeek1 : buf.get? st1.current = some '\x7b' := by
              by_cases hp : peekL buf st1 = some '\x7b'
              · exact hp
              · rw [matchL, if_neg hp] at hm
                simp at hm
            apply hnd
            refine infix_of_adjacent buf st.current '\x7b' '\x7b' ?_ ?_
            · rw [← hc1, hcc]
            · rw [← hcur1]
              exact hpeek1
          | false =>
            have hst2 : st2 = st1 := by
              rw [matchL] at hm
              by_cases hp : peekL buf st1 = some '\x7b'
              · rw [if_pos hp] at hm
                simp at hm
              · rw [if_neg hp] at hm
                exact (Prod.mk.injEq _ _ _ _ ▸ hm).2.symm ▸ rfl
            rw [hst2]
            rfl
        · rw [if_neg hcc]
      dsimp only
      rw [hbody]
      -- Facts about the literal scan from st1.
      have hlit := scanLiteral_spec buf fuel st1 (buf.get ⟨st.current, hlt⟩)
        (by rw [hstart1, hs]; exact hc)
        (by rw [hcur1, hstart1, hs])
        (by rw [hcur1]; omega)
      have htwlen :
          ((buf.drop st1.current).takeWhile (fun c => c ≠ '\x7b')).length ≤
            buf.length - st1.current := by
        have h1 := takeWhile_length_le (fun c : Char => c ≠ '\x7b') (buf.drop st1.current)
        simpa using h1
      -- Recurse from the state after the literal token.
      have hih := scanTokensLoop_noDouble buf hnd fuel (scanLiteral buf fuel st1)
        hlit.2.2.2
        (by rw [hlit.2.2.1]; omega)
        (by rw [hlit.2.2.1]; omega)
      -- Decompose the chunks of the remaining input.
      have hdropcur : buf.drop st.current =
          buf.get ⟨st.current, hlt⟩ :: buf.drop st1.current := by
        rw [hcur1]
        exact drop_cons_of_get buf st.current _ hc
      have hchunks : chunks (buf.drop st.current) =
          (buf.get ⟨st.current, hlt⟩ ::
            (buf.drop st1.current).takeWhile (fun c => c ≠ '\x7b')) ::
            chunks (buf.drop (scanLiteral buf fuel st1).current) := by
        rw [hdropcur, chunks_cons]
        rw [dropWhile_eq_drop_takeWhile, List.drop_drop, hlit.2.2.1]
      refine ⟨?_, ?_⟩
      · rw [hih.1, hlit.1, htok1, hchunks]
        simp [tokenKind, List.append_assoc]
      · rw [hih.2, hlit.2.1, herr1]

/-- `scanTokens` on a `{{`-free buffer: the token sequence is exactly one
LITERAL token per chunk followed by EOF, and no lexical diagnostics are
reported. -/
theorem scanTokens_noDouble (buf : List Char)
    (hnd : ¬ List.IsInfix ['\x7b', '\x7b'] buf) :
    (scanTokens buf).1.map tokenKind =
      (chunks buf).map (fun ch => (TokenType.LITERAL, String.mk ch)) ++
        [(TokenType.EOF, "")] ∧
    (scanTokens buf).2 = [] := by
  have h := scanTokensLoop_noDouble buf hnd (buf.length + 10) initLexSt rfl
    (Nat.zero_le _) (by omega)
  unfold scanTokens
  simpa [initLexSt] using h

/-- `Parser.parse` over a token sequence of literals terminated by EOF:
one Literal statement per token, in order, no diagnostics, cursor at the
EOF. -/
theorem parseLoop_literals (tokens : List Token) :
    ∀ (pairs : List (TokenType × String)) (fuel c : Nat),
      (tokens.drop c).map tokenKind = pairs ++ [(TokenType.EOF, "")] →
      (∀ pr ∈ pairs, pr.1 = TokenType.LITERAL) →
      pairs.length < fuel →
      parseLoop tokens fuel c none =
        ([], (pairs.map (fun pr => Stmt.literal pr.2), c + pairs.length))
  | [], fuel, c, hmap, _, hfuel => by
    rcases fuel with _ | f
    · omega
    rcases hd : tokens.drop c with _ | ⟨t, rest⟩
    · rw [hd] at hmap
      simp at hmap
    · rw [hd] at hmap
      simp only [List.map_cons, List.nil_append] at hmap
      have ht : tokenKind t = (TokenType.EOF, "") := (List.cons.injEq _ _ _ _ ▸ hmap).1
      have hpeek : peekP tokens c = t := by
        unfold peekP
        rw [getD_drop, hd]
        rfl
      have htype : t.type = TokenType.EOF := congrArg Prod.fst ht
      rw [parseLoop, hpeek, if_pos htype]
      simp
  | pr :: pairs', fuel, c, hmap, hlit, hfuel => by
    rcases fuel with _ | f
    · omega
    rcases hd : tokens.drop c with _ | ⟨t, rest⟩
    · rw [hd] at hmap
      simp at hmap
    · rw [hd] at hmap
      simp only [List.map_cons, List.cons_append] at hmap
      have ht : tokenKind t = pr := (List.cons.injEq _ _ _ _ ▸ hmap).1
      have hrest : rest.map tokenKind = pairs' ++ [(TokenType.EOF, "")] :=
        (List.cons.injEq _ _ _ _ ▸ hmap).2
      have hpeek : peekP tokens c = t := by
        unfold peekP
        rw [getD_drop, hd]
        rfl
      have htype : t.type = TokenType.LITERAL := by
        have := hlit pr (List.mem_cons_self pr pairs')
        rw [← this, ← ht]
        rfl
      have hdrop1 : tokens.drop (c + 1) = rest := by
        have h1 : (tokens.drop c).drop 1 = tokens.drop (c + 1) := by
          rw [List.drop_drop]
        rw [← h1, hd]
        rfl
      have ih := parseLoop_literals tokens pairs' f (c + 1)
        (by rw [hdrop1]; exact hrest)
        (fun q hq => hlit q (List.mem_cons_of_mem pr hq))
        (by simpa using hfuel)
      rw [parseLoop, hpeek]
      rw [if_neg (by simp [htype]), if_neg (by simp [stopPred])]
      dsimp only
      rw [htype]
      dsimp only
      rw [ih]
      have hlex : t.lexeme = pr.2 := congrArg Prod.snd ht
      rw [hlex]
      refine Prod.ext rfl (Prod.ext rfl ?_)
      dsimp
      omega

/-- Rendering a list of Literal statements emits no diagnostics and
concatenates their contents (fuel at least the list length). -/
theorem compileStatements_literals :
    ∀ (ss : List String) (fuel : Nat) (args : Value), ss.length ≤ fuel →
      compileStatements fuel (ss.map Stmt.literal) args = ([], .ok (concatStrs ss))
  | [], fuel, args, _ => by
    cases fuel <;> rfl
  | s :: ss', fuel, args, hf => by
    rcases fuel with _ | f
    · simp at hf
    · have ih := compileStatements_literals ss' f args (by simpa using hf)
      simp [compileStatements, ih, concatStrs]

/-- Every statement has positive size. -/
theorem stmtSize_pos (s : Stmt) : 1 ≤ stmtSize s := by
  cases s <;> simp [stmtSize]

/-- The render fuel `stmtsSize` dominates the list length. -/
theorem length_le_stmtsSize : ∀ l : List Stmt, l.length ≤ stmtsSize l
  | [] => by simp [stmtsSize]
  | s :: rest => by
    have h1 := length_le_stmtsSize rest
    have h2 := stmtSize_pos s
    simp only [List.length_cons, stmtsSize]
    omega

/-- Concatenating the string forms of char-list pieces is the string of
their concatenation. -/
theorem concatStrs_map_mk : ∀ cs : List (List Char),
    concatStrs (cs.map (fun ch => String.mk ch)) = String.mk cs.flatten
  | [] => rfl
  | ch :: rest => by
    have ih := concatStrs_map_mk rest
    simp only [List.map_cons, concatStrs, ih, List.flatten_cons]
    rfl

/-- `compileFile` on a `{{`-free source succeeds and returns one Literal
statement per chunk. -/
theorem compileFile_noOpenExpr (src : String) (h : noOpenExpr src) :
    compileFile src =
      some ((chunks src.data).map (fun ch => Stmt.literal (String.mk ch))) := by
  obtain ⟨htok, herr⟩ := scanTokens_noDouble src.data h
  rcases hscan : scanTokens src.data with ⟨toks, lexDs⟩
  rw [hscan] at htok herr
  dsimp only at htok herr
  have hlen : toks.length = (chunks src.data).length + 1 := by
    have hlens := congrArg List.length htok
    simpa using hlens
  have hp := parseLoop_literals toks
    ((chunks src.data).map (fun ch => (TokenType.LITERAL, String.mk ch)))
    (3 * toks.length + 10) 0
    (by simpa using htok)
    (by
      intro pr hpr
      obtain ⟨ch, -, hch⟩ := List.mem_map.mp hpr
      rw [← hch])
    (by simp [hlen]; omega)
  unfold compileFile compileFileSt scanAndParse parseTokens
  rw [hscan]
  dsimp only
  rw [hp]
  dsimp only
  rw [herr]
  simp [List.map_map]

/-- C8.  A source containing no `{{` that compiles successfully renders to
itself unchanged, for every data context, with no render-time
diagnostics. -/
theorem c8_expressionless_roundtrip (src : String) (ctx : Value) (stmts : List Stmt)
    (h1 : noOpenExpr src) (h2 : compileFile src = some stmts) :
    runView stmts ctx = ([], .ok src) := by
  have hc := compileFile_noOpenExpr src h1
  rw [h2] at hc
  have hstmts : stmts = (chunks src.data).map (fun ch => Stmt.literal (String.mk ch)) :=
    Option.some.inj hc
  subst hstmts
  have hmm : (chunks src.data).map (fun ch => Stmt.literal (String.mk ch)) =
      ((chunks src.data).map (fun ch => String.mk ch)).map Stmt.literal := by
    rw [List.map_map]
    rfl
  rw [hmm]
  unfold runView
  rw [compileStatements_literals ((chunks src.data).map (fun ch => String.mk ch)) _ ctx
    (by
      have hle := length_le_stmtsSize
        (((chunks src.data).map (fun ch => String.mk ch)).map Stmt.literal)
      simpa using hle)]
  rw [concatStrs_map_mk, chunks_flatten]

/-- C8 witness at a concrete brace-free source and context. -/
theorem c8_witness : runView [.literal "hello world"] (.vObj []) = ([], .ok "hello world") :=
  c8_expressionless_roundtrip "hello world" (.vObj []) [.literal "hello world"]
    (by decide) rfl

/-- C9 counterexample.  First part: the source `"a{b"` contains no
expression region (no `{{`), so its whole text is a single maximal
literal run, yet parsing produces two adjacent Literal nodes (`"a"` and
`"{b"`), refuting "exactly one Literal node per maximal run".  Second
part: on `"{{if(x)}}abc"` the scanner emits the LITERAL token `"abc"`,
but the unterminated if reports a diagnostic and the parse result is the
empty statement tree — the literal text `"abc"` is discarded — so "no
literal text is discarded by parsing" also fails for sources whose parse
reports a diagnostic (compilation then fails). -/
theorem c9_counterexample :
    (compileFile "a\x7bb" = some [.literal "a", .literal "\x7bb"] ∧
     noOpenExpr "a\x7bb") ∧
    ((scanAndParse "\x7b\x7bif(x)\x7d\x7dabc").1 = [] ∧
     (scanAndParse "\x7b\x7bif(x)\x7d\x7dabc").2 ≠ [] ∧
     litLexemes (scanTokens "\x7b\x7bif(x)\x7d\x7dabc".data).1 = ["abc"] ∧
     compileFile "\x7b\x7bif(x)\x7d\x7dabc" = none) :=
  ⟨⟨rfl, by decide⟩, rfl, by decide, rfl, rfl⟩

/-! ### Parser literal-preservation lemmas (C9) -/

/-- `litLexemes` distributes over append. -/
theorem litLexemes_append : ∀ a b : List Token,
    litLexemes (a ++ b) = litLexemes a ++ litLexemes b
  | [], _ => rfl
  | t :: rest, b => by
    by_cases h : t.type = TokenType.LITERAL <;>
      simp [litLexemes, h, litLexemes_append rest b]

/-- An empty consumed range. -/
theorem tokSlice_same (tokens : List Token) (c : Nat) : tokSlice tokens c c = [] := by
  simp [tokSlice]

/-- A non-EOF peek means the cursor is in range. -/
theorem peekP_lt_of_ne_eof (tokens : List Token) (c : Nat)
    (h : (peekP tokens c).type ≠ TokenType.EOF) : c < tokens.length := by
  by_contra hge
  apply h
  unfold peekP
  rw [List.getD_eq_default _ _ (by omega)]
  rfl

/-- The one-token range at an in-range cursor. -/
theorem tokSlice_single (tokens : List Token) (c : Nat) (h : c < tokens.length) :
    tokSlice tokens c (c + 1) = [peekP tokens c] := by
  have hg : tokens.get? c = some (tokens.get ⟨c, h⟩) := List.get?_eq_get h
  have hd := drop_cons_of_get tokens c _ hg
  unfold tokSlice
  rw [hd]
  have h1 : c + 1 - c = 1 := by omega
  rw [h1]
  have hp : peekP tokens c = tokens.get ⟨c, h⟩ := by
    unfold peekP
    rw [getD_drop, hd]
    rfl
  rw [hp]
  rfl

/-- Splitting a consumed range at an intermediate cursor. -/
theorem tokSlice_split (tokens : List Token) (c c2 c' : Nat)
    (h1 : c ≤ c2) (h2 : c2 ≤ c') :
    tokSlice tokens c c' = tokSlice tokens c c2 ++ tokSlice tokens c2 c' := by
  unfold tokSlice
  have h3 : c' - c = (c2 - c) + (c' - c2) := by omega
  rw [h3, List.take_add, List.drop_drop]
  have h4 : c + (c2 - c) = c2 := by omega
  rw [h4]

/-- A consumed non-LITERAL step contributes no literal text. -/
theorem litLexemes_step (tokens : List Token) (c : Nat)
    (hty : (peekP tokens c).type ≠ TokenType.LITERAL) :
    litLexemes (tokSlice tokens c (c + 1)) = [] := by
  by_cases h : c < tokens.length
  · rw [tokSlice_single tokens c h]
    simp [litLexemes, hty]
  · unfold tokSlice
    rw [List.drop_eq_nil_of_le (by omega)]
    simp [litLexemes]

/-- Drop a leading consumed non-LITERAL token from a range's literal
content. -/
theorem litLexemes_skip (tokens : List Token) (c c' : Nat)
    (h1 : c + 1 ≤ c') (hty : (peekP tokens c).type ≠ TokenType.LITERAL) :
    litLexemes (tokSlice tokens c c') = litLexemes (tokSlice tokens (c + 1) c') := by
  rw [tokSlice_split tokens c (c + 1) c' (by omega) h1, litLexemes_append,
    litLexemes_step tokens c hty]
  rfl

/-- `Parser.match` never moves the cursor backwards. -/
theorem matchP_le (tokens : List Token) (c : Nat) (ty : TokenType) :
    c ≤ (matchP tokens c ty).2 := by
  unfold matchP
  split_ifs <;> simp

/-- Facts of a successful `Parser.match`: one real token of the wanted
type was consumed. -/
theorem matchP_true (tokens : List Token) (c : Nat) (ty : TokenType) (c' : Nat)
    (h : matchP tokens c ty = (true, c')) :
    c' = c + 1 ∧ c < tokens.length ∧ (peekP tokens c).type = ty := by
  unfold matchP at h
  split_ifs at h with h1 h2
  · simp at h
  · have h5 : c' = c + 1 := ((Prod.mk.injEq _ _ _ _).mp h).2.symm
    unfold isNextP at h2
    split_ifs at h2 with h3
    exact ⟨h5, by omega, by simpa using h2⟩
  · simp at h

/-- A failed `Parser.match` does not move the cursor. -/
theorem matchP_false (tokens : List Token) (c : Nat) (ty : TokenType) (c' : Nat)
    (h : matchP tokens c ty = (false, c')) : c' = c := by
  unfold matchP at h
  split_ifs at h <;> simp_all

/-- Facts of a successful `Parser.consume`: no diagnostic, one real token
of the wanted type. -/
theorem consumeP_ok (tokens : List Token) (c : Nat) (ty : TokenType) (msg : String)
    (ds : List Diag) (tok : Token) (c' : Nat)
    (h : consumeP tokens c ty msg = (ds, .ok (tok, c'))) :
    ds = [] ∧ c' = c + 1 ∧ c < tokens.length ∧ (peekP tokens c).type = ty := by
  unfold consumeP at h
  rcases hm : matchP tokens c ty with ⟨m, cm⟩
  rw [hm] at h
  dsimp only at h
  cases m with
  | false => simp at h
  | true =>
    have hf := matchP_true tokens c ty cm hm
    simp only [if_true, Prod.mk.injEq, Except.ok.injEq] at h
    obtain ⟨hds, -, hcm⟩ := h
    exact ⟨hds.symm, by omega, hf.2.1, hf.2.2⟩

/-- A failed `Parser.consume` reports a diagnostic and throws at the
entry cursor. -/
theorem consumeP_error (tokens : List Token) (c : Nat) (ty : TokenType) (msg : String)
    (ds : List Diag) (ce : Nat)
    (h : consumeP tokens c ty msg = (ds, .error ce)) :
    ds = [diagAfter (prevP tokens c) msg] ∧ ce = c := by
  unfold consumeP at h
  rcases hm : matchP tokens c ty with ⟨m, cm⟩
  rw [hm] at h
  dsimp only at h
  cases m with
  | false =>
    have := matchP_false tokens c ty cm hm
    simp only [if_false, Bool.false_eq_true, Prod.mk.injEq, Except.error.injEq] at h
    exact ⟨h.1.symm, h.2.symm⟩
  | true => simp at h

/-- Facts of a true `Parser.isNext`. -/
theorem isNextP_true (tokens : List Token) (c : Nat) (ty : TokenType) (off : Nat)
    (h : isNextP tokens c ty off = true) :
    c + off < tokens.length ∧ (peekP tokens (c + off)).type = ty := by
  unfold isNextP at h
  split_ifs at h with h1
  exact ⟨h1, by simpa using h⟩

/-- A thrown `Parser.variable` chain always reported a diagnostic. -/
theorem varLoop_error_ne (tokens : List Token) :
    ∀ (fuel c : Nat) (keys : List String) (ds : List Diag) (ce : Nat),
      varLoop tokens fuel c keys = (ds, .error ce) → ds ≠ []
  | 0, c, keys, ds, ce, h => by simp [varLoop] at h
  | fuel + 1, c, keys, ds, ce, h => by
    rw [varLoop] at h
    split_ifs at h with hnext
    case neg => simp at h
    dsimp only at h
    split_ifs at h with hdot hbr
    · rcases hc1 : consumeP tokens (c + 1) TokenType.IDENTIFIER
        "Expected property name after \x22.\x22" with ⟨ds1, r1⟩
      rw [hc1] at h
      cases r1 with
      | error ce1 =>
        dsimp only at h
        obtain ⟨hds, -⟩ := Prod.mk.injEq _ _ _ _ ▸ h
        rw [← hds, (consumeP_error _ _ _ _ _ _ hc1).1]
        simp
      | ok pr =>
        rcases pr with ⟨tkn, c2⟩
        dsimp only at h
        rcases hv : varLoop tokens fuel c2 (keys ++ [tkn.lexeme]) with ⟨ds2, r2⟩
        rw [hv] at h
        cases r2 with
        | error ce2 =>
          dsimp only at h
          obtain ⟨hds, -⟩ := Prod.mk.injEq _ _ _ _ ▸ h
          rw [← hds]
          have := varLoop_error_ne tokens fuel c2 (keys ++ [tkn.lexeme]) ds2 ce2 hv
          simp [this]
        | ok pr2 => simp at h
    · rcases hc1 : consumeP tokens (c + 1) TokenType.NUMBER
        "Expected array index after \x22[\x22" with ⟨ds1, r1⟩
      rw [hc1] at h
      cases r1 with
      | error ce1 =>
        dsimp only at h
        obtain ⟨hds, -⟩ := Prod.mk.injEq _ _ _ _ ▸ h
        rw [← hds, (consumeP_error _ _ _ _ _ _ hc1).1]
        simp
      | ok pr =>
        rcases pr with ⟨tkn, c2⟩
        dsimp only at h
        rcases hc2 : consumeP tokens c2 TokenType.CLOSE_BRACKET
          "Expected \x22]\x22 after index" with ⟨ds3, r3⟩
        rw [hc2] at h
        cases r3 with
        | error ce3 =>
          dsimp only at h
          obtain ⟨hds, -⟩ := Prod.mk.injEq _ _ _ _ ▸ h
          rw [← hds, (consumeP_error _ _ _ _ _ _ hc2).1]
          simp
        | ok pr3 =>
          rcases pr3 with ⟨tkn3, c3⟩
          dsimp only at h
          rcases hv : varLoop tokens fuel c3 (keys ++ [tkn.lexeme]) with ⟨ds2, r2⟩
          rw [hv] at h
          cases r2 with
          | error ce2 =>
            dsimp only at h
            obtain ⟨hds, -⟩ := Prod.mk.injEq _ _ _ _ ▸ h
            rw [← hds]
            have := varLoop_error_ne tokens fuel c3 (keys ++ [tkn.lexeme]) ds2 ce2 hv
            simp [this]
          | ok pr2 => simp at h
    · rcases hv : varLoop tokens fuel (c + 1) keys with ⟨ds2, r2⟩
      rw [hv] at h
      cases r2 with
      | error ce2 =>
        dsimp only at h
        obtain ⟨hds, -⟩ := Prod.mk.injEq _ _ _ _ ▸ h
        rw [← hds]
        exact varLoop_error_ne tokens fuel (c + 1) keys ds2 ce2 hv
      | ok pr2 => simp at h

/-- A list with a nonempty right part is nonempty. -/
theorem append_ne_nil_of_right {α : Type} (a b : List α) (h : b ≠ []) : a ++ b ≠ [] :=
  fun hc => h (List.append_eq_nil.mp hc).2

/-- A thrown `Parser.variable` always reported a diagnostic. -/
theorem variableP_error_ne (tokens : List Token) (fuel c : Nat) (ds : List Diag) (ce : Nat)
    (h : variableP tokens fuel c = (ds, .error ce)) : ds ≠ [] := by
  unfold variableP at h
  rcases hc1 : consumeP tokens c TokenType.IDENTIFIER "Expected variable name" with ⟨ds1, r1⟩
  rw [hc1] at h
  cases r1 with
  | error ce1 =>
    dsimp only at h
    obtain ⟨hds, -⟩ := Prod.mk.injEq _ _ _ _ ▸ h
    rw [← hds, (consumeP_error _ _ _ _ _ _ hc1).1]
    simp
  | ok pr =>
    rcases pr with ⟨tok, c1⟩
    dsimp only at h
    rcases hv : varLoop tokens fuel c1 [tok.lexeme] with ⟨ds2, r2⟩
    rw [hv] at h
    cases r2 with
    | error ce2 =>
      dsimp only at h
      obtain ⟨hds, -⟩ := Prod.mk.injEq _ _ _ _ ▸ h
      rw [← hds]
      exact append_ne_nil_of_right _ _ (varLoop_error_ne tokens fuel c1 [tok.lexeme] ds2 ce2 hv)
    | ok pr2 => simp at h

/-- A thrown `Parser.primary` always reported a diagnostic. -/
theorem primaryP_error_ne (tokens : List Token) (fuel c : Nat) (ds : List Diag) (ce : Nat)
    (h : primaryP tokens fuel c = (ds, .error ce)) : ds ≠ [] := by
  unfold primaryP at h
  split at h
  · simp at h
  · simp at h
  · rcases hv : variableP tokens fuel c with ⟨ds1, r1⟩
    rw [hv] at h
    cases r1 with
    | error ce1 =>
      dsimp only at h
      obtain ⟨hds, -⟩ := Prod.mk.injEq _ _ _ _ ▸ h
      rw [← hds]
      exact variableP_error_ne tokens fuel c ds1 ce1 hv
    | ok pr => simp at h
  · obtain ⟨hds, -⟩ := Prod.mk.injEq _ _ _ _ ▸ h
    rw [← hds]
    simp

/-- A thrown `Parser.unary` always reported a diagnostic. -/
theorem unaryP_error_ne (tokens : List Token) (fuel c : Nat) (ds : List Diag) (ce : Nat)
    (h : unaryP tokens fuel c = (ds, .error ce)) : ds ≠ [] := by
  unfold unaryP at h
  rcases hm : matchP tokens c TokenType.BANG with ⟨neg, c1⟩
  rw [hm] at h
  dsimp only at h
  rcases hp : primaryP tokens fuel c1 with ⟨ds1, r1⟩
  rw [hp] at h
  cases r1 with
  | error ce1 =>
    dsimp only at h
    obtain ⟨hds, -⟩ := Prod.mk.injEq _ _ _ _ ▸ h
    rw [← hds]
    exact primaryP_error_ne tokens fuel c1 ds1 ce1 hp
  | ok pr => simp at h

/-- A thrown operator-chaining loop always reported a diagnostic. -/
theorem conditionLoop_error_ne (tokens : List Token) :
    ∀ (fuel c : Nat) (e : LogicExpr) (ds : List Diag) (ce : Nat),
      conditionLoop tokens fuel c e = (ds, .error ce) → ds ≠ []
  | 0, c, e, ds, ce, h => by simp [conditionLoop] at h
  | fuel + 1, c, e, ds, ce, h => by
    rw [conditionLoop] at h
    split at h
    · simp at h
    · dsimp only at h
      rcases hu : unaryP tokens fuel (c + 1) with ⟨ds1, r1⟩
      rw [hu] at h
      cases r1 with
      | error ce1 =>
        dsimp only at h
        obtain ⟨hds, -⟩ := Prod.mk.injEq _ _ _ _ ▸ h
        rw [← hds]
        exact unaryP_error_ne tokens fuel (c + 1) ds1 ce1 hu
      | ok pr =>
        rcases pr with ⟨right, c2⟩
        dsimp only at h
        rename_i op heq
        rcases hl : conditionLoop tokens fuel c2 (.binary op e right) with ⟨ds2, r2⟩
        rw [hl] at h
        cases r2 with
        | error ce2 =>
          dsimp only at h
          obtain ⟨hds, -⟩ := Prod.mk.injEq _ _ _ _ ▸ h
          rw [← hds]
          exact append_ne_nil_of_right _ _
            (conditionLoop_error_ne tokens fuel c2 (.binary op e right) ds2 ce2 hl)
        | ok pr2 => simp at h

/-- A thrown `Parser.condition` always reported a diagnostic. -/
theorem condition_error_ne (tokens : List Token) (fuel c : Nat) (ds : List Diag) (ce : Nat)
    (h : condition tokens fuel c = (ds, .error ce)) : ds ≠ [] := by
  unfold condition at h
  rcases hu : unaryP tokens fuel c with ⟨ds1, r1⟩
  rw [hu] at h
  cases r1 with
  | error ce1 =>
    dsimp only at h
    obtain ⟨hds, -⟩ := Prod.mk.injEq _ _ _ _ ▸ h
    rw [← hds]
    exact unaryP_error_ne tokens fuel c ds1 ce1 hu
  | ok pr =>
    rcases pr with ⟨e1, c1⟩
    dsimp only at h
    rcases hl : conditionLoop tokens fuel c1 e1 with ⟨ds2, r2⟩
    rw [hl] at h
    cases r2 with
    | error ce2 =>
      dsimp only at h
      obtain ⟨hds, -⟩ := Prod.mk.injEq _ _ _ _ ▸ h
      rw [← hds]
      exact append_ne_nil_of_right _ _
        (conditionLoop_error_ne tokens fuel c1 e1 ds2 ce2 hl)
    | ok pr2 => simp at h

/-- A thrown `Parser.ifStatement` always reported a diagnostic, whatever
the body parser did. -/
theorem ifStatement_error_ne (parseAt : ParseAt) (tokens : List Token) (fuel c : Nat)
    (ds : List Diag) (ce : Nat)
    (h : ifStatement parseAt tokens fuel c = (ds, .error ce)) : ds ≠ [] := by
  unfold ifStatement at h
  rcases hm : matchP tokens c TokenType.IF with ⟨mi, ci⟩
  rw [hm] at h
  dsimp only at h
  rcases hc1 : consumeP tokens ci TokenType.OPEN_PAREN "Expected \x22(\x22 after \x22if\x22"
    with ⟨ds1, r1⟩
  rw [hc1] at h
  cases r1 with
  | error ce1 =>
    dsimp only at h
    obtain ⟨hds, -⟩ := Prod.mk.injEq _ _ _ _ ▸ h
    rw [← hds, (consumeP_error _ _ _ _ _ _ hc1).1]
    simp
  | ok pr1 =>
    rcases pr1 with ⟨t1, ca⟩
    dsimp only at h
    rcases hcd : condition tokens fuel ca with ⟨ds2, r2⟩
    rw [hcd] at h
    cases r2 with
    | error ce2 =>
      dsimp only at h
      obtain ⟨hds, -⟩ := Prod.mk.injEq _ _ _ _ ▸ h
      rw [← hds]
      exact append_ne_nil_of_right _ _ (condition_error_ne tokens fuel ca ds2 ce2 hcd)
    | ok pr2 =>
      rcases pr2 with ⟨cond, cb⟩
      dsimp only at h
      rcases hm2 : matchP tokens cb TokenType.CLOSE_PAREN with ⟨mcp, cmc⟩
      rw [hm2] at h
      dsimp only at h
      split_ifs at h with hmcp hnext
      on_goal 2 =>
        obtain ⟨hds, -⟩ := Prod.mk.injEq _ _ _ _ ▸ h
        rw [← hds]
        simp
      on_goal 2 =>
        obtain ⟨hds, -⟩ := Prod.mk.injEq _ _ _ _ ▸ h
        rw [← hds]
        simp
      rcases hc3 : consumeP tokens cmc TokenType.CLOSE_EXPR
          "Expected \x22\x7d\x7d\x22 after \x22if\x22 statement" with ⟨ds3, r3⟩
      rw [hc3] at h
      cases r3 with
      | error ce3 =>
        dsimp only at h
        obtain ⟨hds, -⟩ := Prod.mk.injEq _ _ _ _ ▸ h
        rw [← hds, (consumeP_error _ _ _ _ _ _ hc3).1]
        simp
      | ok pr3 =>
        rcases pr3 with ⟨t3, c2⟩
        dsimp only at h
        rcases hpa : parseAt c2 (some TokenType.ENDIF) with ⟨ds4, ns, c3⟩
        rw [hpa] at h
        dsimp only at h
        rcases hm3 : matchP tokens c3 TokenType.OPEN_EXPR with ⟨m1, c4⟩
        rw [hm3] at h
        dsimp only at h
        rcases hm4 : (if m1 then matchP tokens c4 TokenType.ENDIF else (false, c4))
          with ⟨m2, c5⟩
        rw [hm4] at h
        dsimp only at h
        split_ifs at h with hok
        · simp at h
        · obtain ⟨hds, -⟩ := Prod.mk.injEq _ _ _ _ ▸ h
          rw [← hds]
          simp

/-- A thrown `Parser.forStatement` always reported a diagnostic, whatever
the body parser did. -/
theorem forStatement_error_ne (parseAt : ParseAt) (tokens : List Token) (fuel c : Nat)
    (ds : List Diag) (ce : Nat)
    (h : forStatement parseAt tokens fuel c = (ds, .error ce)) : ds ≠ [] := by
  unfold forStatement at h
  dsimp only at h
  rcases hc1 : consumeP tokens (c + 1) TokenType.OPEN_PAREN "Expected \x22(\x22 after \x22for\x22"
    with ⟨ds1, r1⟩
  rw [hc1] at h
  cases r1 with
  | error ce1 =>
    dsimp only at h
    obtain ⟨hds, -⟩ := Prod.mk.injEq _ _ _ _ ▸ h
    rw [← hds, (consumeP_error _ _ _ _ _ _ hc1).1]
    simp
  | ok pr1 =>
    rcases pr1 with ⟨t1, ca⟩
    dsimp only at h
    rcases hc2 : consumeP tokens ca TokenType.IDENTIFIER "Expected declaration after \x22(\x22"
      with ⟨ds2, r2⟩
    rw [hc2] at h
    cases r2 with
    | error ce2 =>
      dsimp only at h
      obtain ⟨hds, -⟩ := Prod.mk.injEq _ _ _ _ ▸ h
      rw [← hds, (consumeP_error _ _ _ _ _ _ hc2).1]
      simp
    | ok pr2 =>
      rcases pr2 with ⟨nameToken, cb⟩
      dsimp only at h
      rcases hc3 : consumeP tokens cb TokenType.IN "Expected \x22in\x22 keyword after declaration"
        with ⟨ds3, r3⟩
      rw [hc3] at h
      cases r3 with
      | error ce3 =>
        dsimp only at h
        obtain ⟨hds, -⟩ := Prod.mk.injEq _ _ _ _ ▸ h
        rw [← hds, (consumeP_error _ _ _ _ _ _ hc3).1]
        simp
      | ok pr3 =>
        rcases pr3 with ⟨t3, cc⟩
        dsimp only at h
        split_ifs at h with hni
        on_goal 2 =>
          obtain ⟨hds, -⟩ := Prod.mk.injEq _ _ _ _ ▸ h
          rw [← hds]
          simp
        · rcases hv : variableP tokens fuel cc with ⟨ds4, r4⟩
          rw [hv] at h
          cases r4 with
          | error ce4 =>
            dsimp only at h
            obtain ⟨hds, -⟩ := Prod.mk.injEq _ _ _ _ ▸ h
            rw [← hds]
            have h4 := variableP_error_ne tokens fuel cc ds4 ce4 hv
            simp [h4]
          | ok pr4 =>
            rcases pr4 with ⟨arrayVar, cd⟩
            dsimp only at h
            rcases hc5 : consumeP tokens cd TokenType.CLOSE_PAREN
              "Expected \x22)\x22 after expression" with ⟨ds5, r5⟩
            rw [hc5] at h
            cases r5 with
            | error ce5 =>
              dsimp only at h
              obtain ⟨hds, -⟩ := Prod.mk.injEq _ _ _ _ ▸ h
              rw [← hds, (consumeP_error _ _ _ _ _ _ hc5).1]
              simp
            | ok pr5 =>
              rcases pr5 with ⟨t5, ce'⟩
              dsimp only at h
              rcases hc6 : consumeP tokens ce' TokenType.CLOSE_EXPR
                "Expected \x22\x7d\x7d\x22 after \x22for\x22 statement" with ⟨ds6, r6⟩
              rw [hc6] at h
              cases r6 with
              | error ce6 =>
                dsimp only at h
                obtain ⟨hds, -⟩ := Prod.mk.injEq _ _ _ _ ▸ h
                rw [← hds, (consumeP_error _ _ _ _ _ _ hc6).1]
                simp
              | ok pr6 =>
                rcases pr6 with ⟨t6, c2⟩
                dsimp only at h
                rcases hpa : parseAt c2 (some TokenType.ENDFOR) with ⟨ds7, ns, c3⟩
                rw [hpa] at h
                dsimp only at h
                rcases hm3 : matchP tokens c3 TokenType.OPEN_EXPR with ⟨m1, c4⟩
                rw [hm3] at h
                dsimp only at h
                rcases hm4 : (if m1 then matchP tokens c4 TokenType.ENDFOR else (false, c4))
                  with ⟨m2, c5⟩
                rw [hm4] at h
                dsimp only at h
                split_ifs at h with hok
                · simp at h
                · obtain ⟨hds, -⟩ := Prod.mk.injEq _ _ _ _ ▸ h
                  rw [← hds]
                  simp

/-- Decompose an equation between diagnostics/ok-result pairs. -/
theorem pair_ok_inj {α β : Type} (D : List Diag) (K : α) (C : β)
    (ds : List Diag) (K2 : α) (C2 : β)
    (h : (D, (Except.ok (K, C) : Except Nat (α × β))) = (ds, Except.ok (K2, C2))) :
    D = ds ∧ K = K2 ∧ C = C2 := by
  obtain ⟨h1, h2⟩ := Prod.mk.injEq _ _ _ _ ▸ h
  refine ⟨h1, ?_, ?_⟩
  · injection h2 with h3
    exact congrArg Prod.fst h3
  · injection h2 with h3
    exact congrArg Prod.snd h3

/-- Operator tokens are never LITERAL tokens. -/
theorem tokenToOp_ne_literal (ty : TokenType) (op : Operators)
    (h : tokenToOp ty = some op) : ty ≠ TokenType.LITERAL := by
  intro hl
  subst hl
  simp [tokenToOp] at h

/-- A successful `.`/`[` chain of `Parser.variable` moves the cursor
forward over non-LITERAL tokens only. -/
theorem varLoop_lits (tokens : List Token) :
    ∀ (fuel c : Nat) (keys : List String) (ds : List Diag) (keys2 : List String) (c' : Nat),
      varLoop tokens fuel c keys = (ds, .ok (keys2, c')) →
      c ≤ c' ∧ litLexemes (tokSlice tokens c c') = []
  | 0, c, keys, ds, keys2, c', h => by
    rw [varLoop] at h
    obtain ⟨-, -, hc⟩ := pair_ok_inj _ _ _ _ _ _ h
    subst hc
    exact ⟨Nat.le_refl c, by simp [tokSlice_same, litLexemes]⟩
  | fuel + 1, c, keys, ds, keys2, c', h => by
    rw [varLoop] at h
    split_ifs at h with hnext
    case neg =>
      obtain ⟨-, -, hc⟩ := pair_ok_inj _ _ _ _ _ _ h
      subst hc
      exact ⟨Nat.le_refl c, by simp [tokSlice_same, litLexemes]⟩
    have hcty : (peekP tokens c).type ≠ TokenType.LITERAL := by
      rcases (Bool.or_eq_true _ _).mp hnext with h1 | h1
      · have h2 := (isNextP_true _ _ _ _ h1).2
        simp only [Nat.add_zero] at h2
        rw [h2]
        decide
      · have h2 := (isNextP_true _ _ _ _ h1).2
        simp only [Nat.add_zero] at h2
        rw [h2]
        decide
    dsimp only at h
    split_ifs at h with hdot hbr
    · rcases hc1 : consumeP tokens (c + 1) TokenType.IDENTIFIER
        "Expected property name after \x22.\x22" with ⟨ds1, r1⟩
      rw [hc1] at h
      cases r1 with
      | error ce1 => simp at h
      | ok pr =>
        rcases pr with ⟨tkn, c2⟩
        dsimp only at h
        rcases hv : varLoop tokens fuel c2 (keys ++ [tkn.lexeme]) with ⟨ds2, r2⟩
        rw [hv] at h
        cases r2 with
        | error ce2 => dsimp only at h; simp at h
        | ok pr2 =>
          rcases pr2 with ⟨keysr, cr⟩
          dsimp only at h
          obtain ⟨-, -, hc⟩ := pair_ok_inj _ _ _ _ _ _ h
          obtain ⟨-, hc2eq, hlen1, hty1⟩ := consumeP_ok _ _ _ _ _ _ _ hc1
          obtain ⟨hle, hlits⟩ := varLoop_lits tokens fuel c2 (keys ++ [tkn.lexeme]) ds2 keysr cr hv
          rw [← hc]
          constructor
          · omega
          · rw [litLexemes_skip tokens c cr (by omega) hcty]
            have hty1b : (peekP tokens (c + 1)).type ≠ TokenType.LITERAL := by
              rw [hty1]
              decide
            rw [litLexemes_skip tokens (c + 1) cr (by omega) hty1b]
            rw [show c + 1 + 1 = c2 from hc2eq.symm]
            exact hlits
    · rcases hc1 : consumeP tokens (c + 1) TokenType.NUMBER
        "Expected array index after \x22[\x22" with ⟨ds1, r1⟩
      rw [hc1] at h
      cases r1 with
      | error ce1 => simp at h
      | ok pr =>
        rcases pr with ⟨tkn, c2⟩
        dsimp only at h
        rcases hc2 : consumeP tokens c2 TokenType.CLOSE_BRACKET
          "Expected \x22]\x22 after index" with ⟨ds3, r3⟩
        rw [hc2] at h
        cases r3 with
        | error ce3 => dsimp only at h; simp at h
        | ok pr3 =>
          rcases pr3 with ⟨tkn3, c3⟩
          dsimp only at h
          rcases hv : varLoop tokens fuel c3 (keys ++ [tkn.lexeme]) with ⟨ds2, r2⟩
          rw [hv] at h
          cases r2 with
          | error ce2 => dsimp only at h; simp at h
          | ok pr2 =>
            rcases pr2 with ⟨keysr, cr⟩
            dsimp only at h
            obtain ⟨-, -, hc⟩ := pair_ok_inj _ _ _ _ _ _ h
            obtain ⟨-, hc2eq, hlen1, hty1⟩ := consumeP_ok _ _ _ _ _ _ _ hc1
            obtain ⟨-, hc3eq, hlen2, hty2⟩ := consumeP_ok _ _ _ _ _ _ _ hc2
            obtain ⟨hle, hlits⟩ :=
              varLoop_lits tokens fuel c3 (keys ++ [tkn.lexeme]) ds2 keysr cr hv
            rw [← hc]
            constructor
            · omega
            · rw [litLexemes_skip tokens c cr (by omega) hcty]
              have hty1b : (peekP tokens (c + 1)).type ≠ TokenType.LITERAL := by
                rw [hty1]
                decide
              rw [litLexemes_skip tokens (c + 1) cr (by omega) hty1b]
              rw [show c + 1 + 1 = c2 from hc2eq.symm]
              have hty2b : (peekP tokens c2).type ≠ TokenType.LITERAL := by
                rw [hty2]
                decide
              rw [litLexemes_skip tokens c2 cr (by omega) hty2b]
              rw [show c2 + 1 = c3 from hc3eq.symm]
              exact hlits
    · rcases hv : varLoop tokens fuel (c + 1) keys with ⟨ds2, r2⟩
      rw [hv] at h
      cases r2 with
      | error ce2 => dsimp only at h; simp at h
      | ok pr2 =>
        rcases pr2 with ⟨keysr, cr⟩
        dsimp only at h
        obtain ⟨-, -, hc⟩ := pair_ok_inj _ _ _ _ _ _ h
        obtain ⟨hle, hlits⟩ := varLoop_lits tokens fuel (c + 1) keys ds2 keysr cr hv
        rw [← hc]
        constructor
        · omega
        · rw [litLexemes_skip tokens c cr (by omega) hcty]
          exact hlits

/-- A successful `Parser.variable` moves the cursor forward over
non-LITERAL tokens only. -/
theorem variableP_lits (tokens : List Token) (fuel c : Nat) (ds : List Diag)
    (keys2 : List String) (c' : Nat)
    (h : variableP tokens fuel c = (ds, .ok (keys2, c'))) :
    c ≤ c' ∧ litLexemes (tokSlice tokens c c') = [] := by
  unfold variableP at h
  rcases hc1 : consumeP tokens c TokenType.IDENTIFIER "Expected variable name" with ⟨ds1, r1⟩
  rw [hc1] at h
  cases r1 with
  | error ce1 => simp at h
  | ok pr =>
    rcases pr with ⟨tok, c1⟩
    dsimp only at h
    rcases hv : varLoop tokens fuel c1 [tok.lexeme] with ⟨ds2, r2⟩
    rw [hv] at h
    cases r2 with
    | error ce2 => dsimp only at h; simp at h
    | ok pr2 =>
      rcases pr2 with ⟨keysr, cr⟩
      dsimp only at h
      obtain ⟨-, -, hc⟩ := pair_ok_inj _ _ _ _ _ _ h
      obtain ⟨-, hc1eq, hlen1, hty1⟩ := consumeP_ok _ _ _ _ _ _ _ hc1
      obtain ⟨hle, hlits⟩ := varLoop_lits tokens fuel c1 [tok.lexeme] ds2 keysr cr hv
      rw [← hc]
      constructor
      · omega
      · have hty1b : (peekP tokens c).type ≠ TokenType.LITERAL := by
          rw [hty1]
          decide
        rw [litLexemes_skip tokens c cr (by omega) hty1b]
        rw [show c + 1 = c1 from hc1eq.symm]
        exact hlits

/-- A successful `Parser.primary` moves the cursor forward over
non-LITERAL tokens only. -/
theorem primaryP_lits (tokens : List Token) (fuel c : Nat) (ds : List Diag)
    (v : UnaryValue) (c' : Nat)
    (h : primaryP tokens fuel c = (ds, .ok (v, c'))) :
    c ≤ c' ∧ litLexemes (tokSlice tokens c c') = [] := by
  unfold primaryP at h
  split at h
  · rename_i heq
    obtain ⟨-, -, hc⟩ := pair_ok_inj _ _ _ _ _ _ h
    rw [← hc]
    refine ⟨by omega, ?_⟩
    apply litLexemes_step
    rw [heq]
    decide
  · rename_i heq
    obtain ⟨-, -, hc⟩ := pair_ok_inj _ _ _ _ _ _ h
    rw [← hc]
    refine ⟨by omega, ?_⟩
    apply litLexemes_step
    rw [heq]
    decide
  · rcases hv : variableP tokens fuel c with ⟨ds1, r1⟩
    rw [hv] at h
    cases r1 with
    | error ce1 => simp at h
    | ok pr =>
      rcases pr with ⟨keysr, cv⟩
      dsimp only at h
      obtain ⟨-, -, hc⟩ := pair_ok_inj _ _ _ _ _ _ h
      rw [← hc]
      exact variableP_lits tokens fuel c ds1 keysr cv hv
  · simp at h

/-- A successful `Parser.unary` moves the cursor forward over non-LITERAL
tokens only. -/
theorem unaryP_lits (tokens : List Token) (fuel c : Nat) (ds : List Diag)
    (e : LogicExpr) (c' : Nat)
    (h : unaryP tokens fuel c = (ds, .ok (e, c'))) :
    c ≤ c' ∧ litLexemes (tokSlice tokens c c') = [] := by
  unfold unaryP at h
  rcases hm : matchP tokens c TokenType.BANG with ⟨neg, c1⟩
  rw [hm] at h
  dsimp only at h
  rcases hp : primaryP tokens fuel c1 with ⟨ds1, r1⟩
  rw [hp] at h
  cases r1 with
  | error ce1 => simp at h
  | ok pr =>
    rcases pr with ⟨value, cv⟩
    dsimp only at h
    obtain ⟨-, -, hc⟩ := pair_ok_inj _ _ _ _ _ _ h
    rw [← hc]
    obtain ⟨hle, hlits⟩ := primaryP_lits tokens fuel c1 ds1 value cv hp
    cases neg with
    | false =>
      have hc1 : c1 = c := matchP_false tokens c TokenType.BANG c1 hm
      subst hc1
      exact ⟨hle, hlits⟩
    | true =>
      obtain ⟨hc1, hlen, hty⟩ := matchP_true tokens c TokenType.BANG c1 hm
      have htyb : (peekP tokens c).type ≠ TokenType.LITERAL := by
        rw [hty]
        decide
      refine ⟨by omega, ?_⟩
      rw [litLexemes_skip tokens c cv (by omega) htyb]
      rw [show c + 1 = c1 from hc1.symm]
      exact hlits

/-- A successful operator-chaining loop of `Parser.condition` moves the
cursor forward over non-LITERAL tokens only. -/
theorem conditionLoop_lits (tokens : List Token) :
    ∀ (fuel c : Nat) (e : LogicExpr) (ds : List Diag) (e2 : LogicExpr) (c' : Nat),
      conditionLoop tokens fuel c e = (ds, .ok (e2, c')) →
      c ≤ c' ∧ litLexemes (tokSlice tokens c c') = []
  | 0, c, e, ds, e2, c', h => by
    rw [conditionLoop] at h
    obtain ⟨-, -, hc⟩ := pair_ok_inj _ _ _ _ _ _ h
    subst hc
    exact ⟨Nat.le_refl c, by simp [tokSlice_same, litLexemes]⟩
  | fuel + 1, c, e, ds, e2, c', h => by
    rw [conditionLoop] at h
    split at h
    · obtain ⟨-, -, hc⟩ := pair_ok_inj _ _ _ _ _ _ h
      subst hc
      exact ⟨Nat.le_refl c, by simp [tokSlice_same, litLexemes]⟩
    · dsimp only at h
      rcases hu : unaryP tokens fuel (c + 1) with ⟨ds1, r1⟩
      rw [hu] at h
      cases r1 with
      | error ce1 => simp at h
      | ok pr =>
        rcases pr with ⟨right, c2⟩
        dsimp only at h
        rename_i op heq
        rcases hl : conditionLoop tokens fuel c2 (.binary op e right) with ⟨ds2, r2⟩
        rw [hl] at h
        cases r2 with
        | error ce2 => dsimp only at h; simp at h
        | ok pr2 =>
          rcases pr2 with ⟨er, cr⟩
          dsimp only at h
          obtain ⟨-, -, hc⟩ := pair_ok_inj _ _ _ _ _ _ h
          rw [← hc]
          obtain ⟨hle1, hlits1⟩ := unaryP_lits tokens fuel (c + 1) ds1 right c2 hu
          obtain ⟨hle2, hlits2⟩ :=
            conditionLoop_lits tokens fuel c2 (.binary op e right) ds2 er cr hl
          have htyb : (peekP tokens c).type ≠ TokenType.LITERAL :=
            tokenToOp_ne_literal _ op heq
          refine ⟨by omega, ?_⟩
          rw [litLexemes_skip tokens c cr (by omega) htyb]
          rw [tokSlice_split tokens (c + 1) c2 cr hle1 hle2, litLexemes_append,
            hlits1, hlits2]
          rfl

/-- A successful `Parser.condition` moves the cursor forward over
non-LITERAL tokens only. -/
theorem condition_lits (tokens : List Token) (fuel c : Nat) (ds : List Diag)
    (e : LogicExpr) (c' : Nat)
    (h : condition tokens fuel c = (ds, .ok (e, c'))) :
    c ≤ c' ∧ litLexemes (tokSlice tokens c c') = [] := by
  unfold condition at h
  rcases hu : unaryP tokens fuel c with ⟨ds1, r1⟩
  rw [hu] at h
  cases r1 with
  | error ce1 => simp at h
  | ok pr =>
    rcases pr with ⟨e1, c1⟩
    dsimp only at h
    rcases hl : conditionLoop tokens fuel c1 e1 with ⟨ds2, r2⟩
    rw [hl] at h
    cases r2 with
    | error ce2 => dsimp only at h; simp at h
    | ok pr2 =>
      rcases pr2 with ⟨er, cr⟩
      dsimp only at h
      obtain ⟨-, -, hc⟩ := pair_ok_inj _ _ _ _ _ _ h
      rw [← hc]
      obtain ⟨hle1, hlits1⟩ := unaryP_lits tokens fuel c ds1 e1 c1 hu
      obtain ⟨hle2, hlits2⟩ := conditionLoop_lits tokens fuel c1 e1 ds2 er cr hl
      refine ⟨by omega, ?_⟩
      rw [tokSlice_split tokens c c1 cr hle1 hle2, litLexemes_append, hlits1, hlits2]
      rfl

/-- A diagnostic-free successful `Parser.ifStatement` yields an If whose
body Literals are exactly the LITERAL lexemes of the consumed token
range, provided the threaded body parser has that property. -/
theorem ifStatement_lits (parseAt : ParseAt) (tokens : List Token)
    (hPA : ∀ (cx : Nat) (stop : Option TokenType) (dsx : List Diag) (nsx : List Stmt) (cy : Nat),
      parseAt cx stop = (dsx, (nsx, cy)) → dsx = [] →
      cx ≤ cy ∧ stmtsLits nsx = litLexemes (tokSlice tokens cx cy))
    (fuel c : Nat) (stmt : Stmt) (c' : Nat)
    (h : ifStatement parseAt tokens fuel c = ([], .ok (stmt, c'))) :
    c ≤ c' ∧ stmtLits stmt = litLexemes (tokSlice tokens c c') := by
  unfold ifStatement at h
  rcases hm : matchP tokens c TokenType.IF with ⟨mi, ci⟩
  rw [hm] at h
  dsimp only at h
  rcases hc1 : consumeP tokens ci TokenType.OPEN_PAREN "Expected \x22(\x22 after \x22if\x22"
    with ⟨ds1, r1⟩
  rw [hc1] at h
  cases r1 with
  | error ce1 => simp at h
  | ok pr1 =>
    rcases pr1 with ⟨t1, ca⟩
    dsimp only at h
    rcases hcd : condition tokens fuel ca with ⟨ds2, r2⟩
    rw [hcd] at h
    cases r2 with
    | error ce2 => dsimp only at h; simp at h
    | ok pr2 =>
      rcases pr2 with ⟨cond, cb⟩
      dsimp only at h
      rcases hm2 : matchP tokens cb TokenType.CLOSE_PAREN with ⟨mcp, cmc⟩
      rw [hm2] at h
      dsimp only at h
      split_ifs at h with hmcp hnext
      on_goal 2 => simp at h
      on_goal 2 => simp at h
      rcases hc3 : consumeP tokens cmc TokenType.CLOSE_EXPR
          "Expected \x22\x7d\x7d\x22 after \x22if\x22 statement" with ⟨ds3, r3⟩
      rw [hc3] at h
      cases r3 with
      | error ce3 => dsimp only at h; simp at h
      | ok pr3 =>
        rcases pr3 with ⟨t3, c2⟩
        dsimp only at h
        rcases hpa : parseAt c2 (some TokenType.ENDIF) with ⟨ds4, ns, c3⟩
        rw [hpa] at h
        dsimp only at h
        rcases hm3 : matchP tokens c3 TokenType.OPEN_EXPR with ⟨m1, c4⟩
        rw [hm3] at h
        dsimp only at h
        rcases hm4 : (if m1 then matchP tokens c4 TokenType.ENDIF else (false, c4))
          with ⟨m2, c5⟩
        rw [hm4] at h
        dsimp only at h
        split_ifs at h with hok
        · have h2 : (ds1 ++ ds2 ++ ds3 ++ ds4,
              (Except.ok (Stmt.ifStmt cond ns, c5) : Except Nat (Stmt × Nat))) =
              (([] : List Diag), Except.ok (stmt, c')) := h
          obtain ⟨hD, hK, hC⟩ := pair_ok_inj _ _ _ _ _ _ h2
          simp only [List.append_eq_nil] at hD
          obtain ⟨⟨⟨hd1, hd2⟩, hd3⟩, hd4⟩ := hD
          obtain ⟨-, hca, hcilen, htyOP⟩ := consumeP_ok _ _ _ _ _ _ _ hc1
          obtain ⟨hleC, hlitsC⟩ := condition_lits tokens fuel ca ds2 cond cb hcd
          rw [hmcp] at hm2
          obtain ⟨hcmc, hcblen, htyCP⟩ := matchP_true _ _ _ _ hm2
          obtain ⟨-, hc2e, hcmclen, htyCE⟩ := consumeP_ok _ _ _ _ _ _ _ hc3
          obtain ⟨hleB, hlitsB⟩ := hPA c2 (some TokenType.ENDIF) ds4 ns c3 hpa hd4
          rw [hok.1] at hm3
          obtain ⟨hc4, hc3len, htyOE⟩ := matchP_true _ _ _ _ hm3
          have hm4b : matchP tokens c4 TokenType.ENDIF = (m2, c5) := by
            rw [hok.1] at hm4
            simpa using hm4
          rw [hok.2] at hm4b
          obtain ⟨hc5, hc4len, htyEI⟩ := matchP_true _ _ _ _ hm4b
          have hseg0 : litLexemes (tokSlice tokens c c5) =
              litLexemes (tokSlice tokens ci c5) := by
            cases mi with
            | false =>
              have hcic : ci = c := matchP_false _ _ _ _ hm
              rw [hcic]
            | true =>
              obtain ⟨hcic, hclen, htyIF⟩ := matchP_true _ _ _ _ hm
              have htyb : (peekP tokens c).type ≠ TokenType.LITERAL := by
                rw [htyIF]
                decide
              rw [litLexemes_skip tokens c c5 (by omega) htyb]
              rw [show c + 1 = ci from hcic.symm]
          have hcci : c ≤ ci := by
            cases mi with
            | false => rw [matchP_false _ _ _ _ hm]
            | true => rw [(matchP_true _ _ _ _ hm).1]; omega
          rw [← hC, ← hK]
          refine ⟨by omega, ?_⟩
          show stmtsLits ns = litLexemes (tokSlice tokens c c5)
          rw [hseg0]
          have htyOPb : (peekP tokens ci).type ≠ TokenType.LITERAL := by
            rw [htyOP]
            decide
          rw [litLexemes_skip tokens ci c5 (by omega) htyOPb]
          rw [show ci + 1 = ca from hca.symm]
          rw [tokSlice_split tokens ca cb c5 hleC (by omega), litLexemes_append, hlitsC,
            List.nil_append]
          have htyCPb : (peekP tokens cb).type ≠ TokenType.LITERAL := by
            rw [htyCP]
            decide
          rw [litLexemes_skip tokens cb c5 (by omega) htyCPb]
          rw [show cb + 1 = cmc from hcmc.symm]
          have htyCEb : (peekP tokens cmc).type ≠ TokenType.LITERAL := by
            rw [htyCE]
            decide
          rw [litLexemes_skip tokens cmc c5 (by omega) htyCEb]
          rw [show cmc + 1 = c2 from hc2e.symm]
          rw [tokSlice_split tokens c2 c3 c5 hleB (by omega), litLexemes_append]
          have htyOEb : (peekP tokens c3).type ≠ TokenType.LITERAL := by
            rw [htyOE]
            decide
          rw [litLexemes_skip tokens c3 c5 (by omega) htyOEb]
          rw [show c3 + 1 = c4 from hc4.symm]
          have htyEIb : (peekP tokens c4).type ≠ TokenType.LITERAL := by
            rw [htyEI]
            decide
          rw [litLexemes_skip tokens c4 c5 (by omega) htyEIb]
          rw [show c4 + 1 = c5 from hc5.symm]
          rw [tokSlice_same]
          simp only [litLexemes, List.append_nil]
          exact hlitsB
        · simp at h

/-- A diagnostic-free successful `Parser.forStatement` (entered on a FOR
token, as `parseExpr` does) yields a For whose body Literals are exactly
the LITERAL lexemes of the consumed token range, provided the threaded
body parser has that property. -/
theorem forStatement_lits (parseAt : ParseAt) (tokens : List Token)
    (hPA : ∀ (cx : Nat) (stop : Option TokenType) (dsx : List Diag) (nsx : List Stmt) (cy : Nat),
      parseAt cx stop = (dsx, (nsx, cy)) → dsx = [] →
      cx ≤ cy ∧ stmtsLits nsx = litLexemes (tokSlice tokens cx cy))
    (fuel c : Nat) (stmt : Stmt) (c' : Nat)
    (hfor : (peekP tokens c).type ≠ TokenType.LITERAL)
    (h : forStatement parseAt tokens fuel c = ([], .ok (stmt, c'))) :
    c ≤ c' ∧ stmtLits stmt = litLexemes (tokSlice tokens c c') := by
  unfold forStatement at h
  dsimp only at h
  rcases hc1 : consumeP tokens (c + 1) TokenType.OPEN_PAREN "Expected \x22(\x22 after \x22for\x22"
    with ⟨ds1, r1⟩
  rw [hc1] at h
  cases r1 with
  | error ce1 => simp at h
  | ok pr1 =>
    rcases pr1 with ⟨t1, ca⟩
    dsimp only at h
    rcases hc2 : consumeP tokens ca TokenType.IDENTIFIER "Expected declaration after \x22(\x22"
      with ⟨ds2, r2⟩
    rw [hc2] at h
    cases r2 with
    | error ce2 => dsimp only at h; simp at h
    | ok pr2 =>
      rcases pr2 with ⟨nameToken, cb⟩
      dsimp only at h
      rcases hc3 : consumeP tokens cb TokenType.IN "Expected \x22in\x22 keyword after declaration"
        with ⟨ds3, r3⟩
      rw [hc3] at h
      cases r3 with
      | error ce3 => dsimp only at h; simp at h
      | ok pr3 =>
        rcases pr3 with ⟨t3, cc⟩
        dsimp only at h
        split_ifs at h with hni
        on_goal 2 => simp at h
        rcases hv : variableP tokens fuel cc with ⟨ds4, r4⟩
        rw [hv] at h
        cases r4 with
        | error ce4 => dsimp only at h; simp at h
        | ok pr4 =>
          rcases pr4 with ⟨arrayVar, cd⟩
          dsimp only at h
          rcases hc5 : consumeP tokens cd TokenType.CLOSE_PAREN
            "Expected \x22)\x22 after expression" with ⟨ds5, r5⟩
          rw [hc5] at h
          cases r5 with
          | error ce5 => dsimp only at h; simp at h
          | ok pr5 =>
            rcases pr5 with ⟨t5, cz⟩
            dsimp only at h
            rcases hc6 : consumeP tokens cz TokenType.CLOSE_EXPR
              "Expected \x22\x7d\x7d\x22 after \x22for\x22 statement" with ⟨ds6, r6⟩
            rw [hc6] at h
            cases r6 with
            | error ce6 => dsimp only at h; simp at h
            | ok pr6 =>
              rcases pr6 with ⟨t6, c2⟩
              dsimp only at h
              rcases hpa : parseAt c2 (some TokenType.ENDFOR) with ⟨ds7, ns, c3⟩
              rw [hpa] at h
              dsimp only at h
              rcases hm3 : matchP tokens c3 TokenType.OPEN_EXPR with ⟨m1, c4⟩
              rw [hm3] at h
              dsimp only at h
              rcases hm4 : (if m1 then matchP tokens c4 TokenType.ENDFOR else (false, c4))
                with ⟨m2, c5⟩
              rw [hm4] at h
              dsimp only at h
              split_ifs at h with hok
              · have h2 : (ds1 ++ ds2 ++ ds3 ++ ds4 ++ ds5 ++ ds6 ++ ds7,
                    (Except.ok (Stmt.forStmt arrayVar nameToken.lexeme ns, c5) :
                      Except Nat (Stmt × Nat))) =
                    (([] : List Diag), Except.ok (stmt, c')) := h
                obtain ⟨hD, hK, hC⟩ := pair_ok_inj _ _ _ _ _ _ h2
                simp only [List.append_eq_nil] at hD
                obtain ⟨⟨⟨⟨⟨⟨hd1, hd2⟩, hd3⟩, hd4⟩, hd5⟩, hd6⟩, hd7⟩ := hD
                obtain ⟨-, hca, hc1len, htyOP⟩ := consumeP_ok _ _ _ _ _ _ _ hc1
                obtain ⟨-, hcb, hcalen, htyID⟩ := consumeP_ok _ _ _ _ _ _ _ hc2
                obtain ⟨-, hcc, hcblen, htyIN⟩ := consumeP_ok _ _ _ _ _ _ _ hc3
                obtain ⟨hleV, hlitsV⟩ := variableP_lits tokens fuel cc ds4 arrayVar cd hv
                obtain ⟨-, hcz, hcdlen, htyCP⟩ := consumeP_ok _ _ _ _ _ _ _ hc5
                obtain ⟨-, hc2e, hczlen, htyCE⟩ := consumeP_ok _ _ _ _ _ _ _ hc6
                obtain ⟨hleB, hlitsB⟩ := hPA c2 (some TokenType.ENDFOR) ds7 ns c3 hpa hd7
                rw [hok.1] at hm3
                obtain ⟨hc4, hc3len, htyOE⟩ := matchP_true _ _ _ _ hm3
                have hm4b : matchP tokens c4 TokenType.ENDFOR = (m2, c5) := by
                  rw [hok.1] at hm4
                  simpa using hm4
                rw [hok.2] at hm4b
                obtain ⟨hc5e, hc4len, htyEF⟩ := matchP_true _ _ _ _ hm4b
                rw [← hC, ← hK]
                refine ⟨by omega, ?_⟩
                show stmtsLits ns = litLexemes (tokSlice tokens c c5)
                rw [litLexemes_skip tokens c c5 (by omega) hfor]
                have htyOPb : (peekP tokens (c + 1)).type ≠ TokenType.LITERAL := by
                  rw [htyOP]
                  decide
                rw [litLexemes_skip tokens (c + 1) c5 (by omega) htyOPb]
                rw [show c + 1 + 1 = ca from hca.symm]
                have htyIDb : (peekP tokens ca).type ≠ TokenType.LITERAL := by
                  rw [htyID]
                  decide
                rw [litLexemes_skip tokens ca c5 (by omega) htyIDb]
                rw [show ca + 1 = cb from hcb.symm]
                have htyINb : (peekP tokens cb).type ≠ TokenType.LITERAL := by
                  rw [htyIN]
                  decide
                rw [litLexemes_skip tokens cb c5 (by omega) htyINb]
                rw [show cb + 1 = cc from hcc.symm]
                rw [tokSlice_split tokens cc cd c5 hleV (by omega), litLexemes_append,
                  hlitsV, List.nil_append]
                have htyCPb : (peekP tokens cd).type ≠ TokenType.LITERAL := by
                  rw [htyCP]
                  decide
                rw [litLexemes_skip tokens cd c5 (by omega) htyCPb]
                rw [show cd + 1 = cz from hcz.symm]
                have htyCEb : (peekP tokens cz).type ≠ TokenType.LITERAL := by
                  rw [htyCE]
                  decide
                rw [litLexemes_skip tokens cz c5 (by omega) htyCEb]
                rw [show cz + 1 = c2 from hc2e.symm]
                rw [tokSlice_split tokens c2 c3 c5 hleB (by omega), litLexemes_append]
                have htyOEb : (peekP tokens c3).type ≠ TokenType.LITERAL := by
                  rw [htyOE]
                  decide
                rw [litLexemes_skip tokens c3 c5 (by omega) htyOEb]
                rw [show c3 + 1 = c4 from hc4.symm]
                have htyEFb : (peekP tokens c4).type ≠ TokenType.LITERAL := by
                  rw [htyEF]
                  decide
                rw [litLexemes_skip tokens c4 c5 (by omega) htyEFb]
                rw [show c4 + 1 = c5 from hc5e.symm]
                rw [tokSlice_same]
                simp only [litLexemes, List.append_nil]
                exact hlitsB
              · simp at h

/-- Decompose an equation between diagnostics/result-pair pairs. -/
theorem pair_pair_inj {γ α β : Type} (D : γ) (K : α) (C : β) (ds : γ) (K2 : α) (C2 : β)
    (h : (D, (K, C)) = (ds, (K2, C2))) : D = ds ∧ K = K2 ∧ C = C2 :=
  ⟨congrArg Prod.fst h, congrArg (fun p => p.2.1) h, congrArg (fun p => p.2.2) h⟩

/-- A diagnostic-free `parseExpr` consumes a forward token range whose
LITERAL lexemes are exactly the Literal contents of the produced
statement (if any), provided the threaded body parser preserves
literals. -/
theorem parseExpr_lits (parseAt : ParseAt) (tokens : List Token)
    (hPA : ∀ (cx : Nat) (stop : Option TokenType) (dsx : List Diag) (nsx : List Stmt) (cy : Nat),
      parseAt cx stop = (dsx, (nsx, cy)) → dsx = [] →
      cx ≤ cy ∧ stmtsLits nsx = litLexemes (tokSlice tokens cx cy))
    (fuel c : Nat) (stmtO : Option Stmt) (c2 : Nat)
    (h : parseExpr parseAt tokens fuel c = ([], (stmtO, c2))) :
    c ≤ c2 ∧ optLits stmtO = litLexemes (tokSlice tokens c c2) := by
  unfold parseExpr at h
  split at h
  · rcases hv : variableP tokens fuel c with ⟨ds1, r1⟩
    rw [hv] at h
    cases r1 with
    | ok pr =>
      rcases pr with ⟨keys, cv⟩
      dsimp only at h
      obtain ⟨hds, hs, hc⟩ := pair_pair_inj _ _ _ _ _ _ h
      rw [← hs, ← hc]
      obtain ⟨hle, hlits⟩ := variableP_lits tokens fuel c ds1 keys cv hv
      refine ⟨hle, ?_⟩
      simp only [optLits, stmtLits]
      exact hlits.symm
    | error ce =>
      dsimp only at h
      obtain ⟨hds, -, -⟩ := pair_pair_inj _ _ _ _ _ _ h
      exact absurd hds (variableP_error_ne tokens fuel c ds1 ce hv)
  · rcases hv : ifStatement parseAt tokens fuel c with ⟨ds1, r1⟩
    rw [hv] at h
    cases r1 with
    | ok pr =>
      rcases pr with ⟨stmt, cv⟩
      dsimp only at h
      obtain ⟨hds, hs, hc⟩ := pair_pair_inj _ _ _ _ _ _ h
      rw [← hs, ← hc]
      rw [hds] at hv
      obtain ⟨hle, hlits⟩ := ifStatement_lits parseAt tokens hPA fuel c stmt cv hv
      exact ⟨hle, by simpa [optLits] using hlits⟩
    | error ce =>
      dsimp only at h
      obtain ⟨hds, -, -⟩ := pair_pair_inj _ _ _ _ _ _ h
      exact absurd hds (ifStatement_error_ne parseAt tokens fuel c ds1 ce hv)
  · simp at h
  · simp at h
  · rename_i heq
    rcases hv : forStatement parseAt tokens fuel c with ⟨ds1, r1⟩
    rw [hv] at h
    cases r1 with
    | ok pr =>
      rcases pr with ⟨stmt, cv⟩
      dsimp only at h
      obtain ⟨hds, hs, hc⟩ := pair_pair_inj _ _ _ _ _ _ h
      rw [← hs, ← hc]
      rw [hds] at hv
      have hfor : (peekP tokens c).type ≠ TokenType.LITERAL := by
        rw [heq]
        decide
      obtain ⟨hle, hlits⟩ := forStatement_lits parseAt tokens hPA fuel c stmt cv hfor hv
      exact ⟨hle, by simpa [optLits] using hlits⟩
    | error ce =>
      dsimp only at h
      obtain ⟨hds, -, -⟩ := pair_pair_inj _ _ _ _ _ _ h
      exact absurd hds (forStatement_error_ne parseAt tokens fuel c ds1 ce hv)
  · obtain ⟨-, hs, hc⟩ := pair_pair_inj _ _ _ _ _ _ h
    rw [← hs, ← hc]
    exact ⟨Nat.le_refl c, by simp [optLits, tokSlice_same, litLexemes]⟩

/-- A diagnostic-free run of the statement-sequence loop discards no
literal text: the Literal contents of the produced statements are
exactly the LITERAL token lexemes of the consumed range, and with
enough fuel the loop only stops at EOF or at its stopping keyword. -/
theorem parseLoop_lits (tokens : List Token) :
    ∀ (fuel c : Nat) (stopAt : Option TokenType) (ns : List Stmt) (c' : Nat),
      parseLoop tokens fuel c stopAt = ([], (ns, c')) →
      c ≤ c' ∧ stmtsLits ns = litLexemes (tokSlice tokens c c') ∧
        (tokens.length + 1 - c ≤ fuel →
          (peekP tokens c').type = TokenType.EOF ∨ stopPred tokens c' stopAt = true)
  | 0, c, stopAt, ns, c', h => by
    rw [parseLoop] at h
    obtain ⟨-, hn, hc⟩ := pair_pair_inj _ _ _ _ _ _ h
    rw [← hn, ← hc]
    refine ⟨Nat.le_refl c, by simp [stmtsLits, tokSlice_same, litLexemes], ?_⟩
    intro hfuel
    left
    unfold peekP
    rw [List.getD_eq_default _ _ (by omega)]
    rfl
  | fuel + 1, c, stopAt, ns, c', h => by
    have hPA : ∀ (cw : Nat) (stop : Option TokenType) (dsx : List Diag) (nsx : List Stmt)
        (cy : Nat), parseLoop tokens fuel cw stop = (dsx, (nsx, cy)) → dsx = [] →
        cw ≤ cy ∧ stmtsLits nsx = litLexemes (tokSlice tokens cw cy) := by
      intro cw stop dsx nsx cy hx hdx
      rw [hdx] at hx
      obtain ⟨a, b, -⟩ := parseLoop_lits tokens fuel cw stop nsx cy hx
      exact ⟨a, b⟩
    rw [parseLoop] at h
    split_ifs at h with heof hstop
    · obtain ⟨-, hn, hc⟩ := pair_pair_inj _ _ _ _ _ _ h
      rw [← hn, ← hc]
      exact ⟨Nat.le_refl c, by simp [stmtsLits, tokSlice_same, litLexemes],
        fun _ => Or.inl heof⟩
    · obtain ⟨-, hn, hc⟩ := pair_pair_inj _ _ _ _ _ _ h
      rw [← hn, ← hc]
      exact ⟨Nat.le_refl c, by simp [stmtsLits, tokSlice_same, litLexemes],
        fun _ => Or.inr hstop⟩
    · dsimp only at h
      have hlt : c < tokens.length := peekP_lt_of_ne_eof tokens c heof
      split at h
      · rename_i heq
        rcases hrec : parseLoop tokens fuel (c + 1) stopAt with ⟨ds0, ns0, c0⟩
        rw [hrec] at h
        dsimp only at h
        obtain ⟨hds, hn, hc⟩ := pair_pair_inj _ _ _ _ _ _ h
        rw [hds] at hrec
        obtain ⟨hle, hlits, hstopc⟩ := parseLoop_lits tokens fuel (c + 1) stopAt ns0 c0 hrec
        rw [← hn, ← hc]
        refine ⟨by omega, ?_, fun hf => hstopc (by omega)⟩
        rw [tokSlice_split tokens c (c + 1) c0 (by omega) (by omega), litLexemes_append,
          tokSlice_single tokens c hlt]
        simp only [stmtsLits, stmtLits, litLexemes, if_pos heq]
        rw [hlits]
      · rename_i heq
        rcases hex : parseExpr (parseLoop tokens fuel) tokens fuel (c + 1) with ⟨ds1, stmtO, cx⟩
        rw [hex] at h
        dsimp only at h
        split at h
        · rename_i stmtOx stmt
          rcases hmc : matchP tokens cx TokenType.CLOSE_EXPR with ⟨mc, c3⟩
          rw [hmc] at h
          dsimp only at h
          rcases hrec : parseLoop tokens fuel c3 stopAt with ⟨ds3, ns3, c0⟩
          rw [hrec] at h
          dsimp only at h
          obtain ⟨hds, hn, hc⟩ := pair_pair_inj _ _ _ _ _ _ h
          simp only [List.append_eq_nil] at hds
          obtain ⟨⟨hd1, hd2⟩, hd3⟩ := hds
          cases mc with
          | false =>
            exact absurd hd2 (by simp)
          | true =>
            obtain ⟨hc3, hcxlen, htyCE⟩ := matchP_true _ _ _ _ hmc
            rw [hd1] at hex
            obtain ⟨hleE, hlitsE⟩ :=
              parseExpr_lits (parseLoop tokens fuel) tokens hPA fuel (c + 1) (some stmt) cx hex
            simp only [optLits] at hlitsE
            rw [hd3] at hrec
            obtain ⟨hleR, hlitsR, hstopc⟩ := parseLoop_lits tokens fuel c3 stopAt ns3 c0 hrec
            rw [← hn, ← hc]
            refine ⟨by omega, ?_, fun hf => hstopc (by omega)⟩
            have htyb : (peekP tokens c).type ≠ TokenType.LITERAL := by
              rw [heq]
              decide
            rw [litLexemes_skip tokens c c0 (by omega) htyb]
            rw [tokSlice_split tokens (c + 1) cx c0 hleE (by omega), litLexemes_append]
            have htyCEb : (peekP tokens cx).type ≠ TokenType.LITERAL := by
              rw [htyCE]
              decide
            rw [litLexemes_skip tokens cx c0 (by omega) htyCEb]
            rw [show cx + 1 = c3 from hc3.symm]
            simp only [stmtsLits]
            rw [hlitsR, ← hlitsE]
        · rcases hrec : parseLoop tokens fuel cx stopAt with ⟨ds3, ns3, c0⟩
          rw [hrec] at h
          dsimp only at h
          obtain ⟨hds, hn, hc⟩ := pair_pair_inj _ _ _ _ _ _ h
          simp only [List.append_eq_nil] at hds
          obtain ⟨hd1, hd3⟩ := hds
          rw [hd1] at hex
          obtain ⟨hleE, hlitsE⟩ :=
            parseExpr_lits (parseLoop tokens fuel) tokens hPA fuel (c + 1) none cx hex
          simp only [optLits] at hlitsE
          rw [hd3] at hrec
          obtain ⟨hleR, hlitsR, hstopc⟩ := parseLoop_lits tokens fuel cx stopAt ns3 c0 hrec
          rw [← hn, ← hc]
          refine ⟨by omega, ?_, fun hf => hstopc (by omega)⟩
          have htyb : (peekP tokens c).type ≠ TokenType.LITERAL := by
            rw [heq]
            decide
          rw [litLexemes_skip tokens c c0 (by omega) htyb]
          rw [tokSlice_split tokens (c + 1) cx c0 hleE (by omega), litLexemes_append]
          rw [hlitsR, ← hlitsE, List.nil_append]
      · rename_i hne1 hne2
        obtain ⟨hle, hlits, hstopc⟩ := parseLoop_lits tokens fuel (c + 1) stopAt ns c' h
        have htyb : (peekP tokens c).type ≠ TokenType.LITERAL := fun hx => hne1 hx
        refine ⟨by omega, ?_, fun hf => hstopc (by omega)⟩
        rw [litLexemes_skip tokens c c' (by omega) htyb]
        exact hlits

/-- `Lexer.error` does not touch the token list. -/
theorem lexError_tokens (st : LexSt) (m : String) (l : Nat) (col : ColRef) :
    (lexError st m l col).tokens = st.tokens := rfl

/-- `Lexer.match` does not touch the token list. -/
theorem matchL_tokens (buf : List Char) (st : LexSt) (c : Char) :
    ((matchL buf st c).2).tokens = st.tokens := by
  unfold matchL
  split_ifs
  · exact (advanceL_fields buf st).2.2.2.1
  · rfl

/-- `Lexer.addToken` with a non-EOF type keeps the token list free of EOF
tokens. -/
theorem addToken_noEof (buf : List Char) (st : LexSt) (ty : TokenType) (lex : Option String)
    (hty : ty ≠ TokenType.EOF) (h : noEofTokens st.tokens) :
    noEofTokens (addToken buf st ty lex).tokens := by
  unfold addToken noEofTokens
  dsimp only
  intro t ht
  rcases List.mem_append.mp ht with h1 | h1
  · exact h t h1
  · have h2 : t = ⟨ty, lex.getD (sliceL buf st.start st.current), st.line,
        (st.colStart, st.colCurrent)⟩ := by simpa using h1
    rw [h2]
    exact hty

/-- The identifier scan loop does not touch the token list. -/
theorem identifierLoop_tokens (buf : List Char) :
    ∀ (fuel : Nat) (st : LexSt), (identifierLoop buf fuel st).tokens = st.tokens
  | 0, _ => rfl
  | fuel + 1, st => by
    rw [identifierLoop]
    split_ifs
    · rw [identifierLoop_tokens buf fuel]
      exact (advanceL_fields buf st).2.2.2.1
    · rfl

/-- The number scan loop does not touch the token list. -/
theorem numberLoop_tokens (buf : List Char) :
    ∀ (fuel : Nat) (st : LexSt), (numberLoop buf fuel st).tokens = st.tokens
  | 0, _ => rfl
  | fuel + 1, st => by
    rw [numberLoop]
    split_ifs
    · rw [numberLoop_tokens buf fuel]
      exact (advanceL_fields buf st).2.2.2.1
    · rfl

/-- The string scan loop does not touch the token list. -/
theorem stringLoop_tokens (buf : List Char) :
    ∀ (fuel : Nat) (st : LexSt), (stringLoop buf fuel st).tokens = st.tokens
  | 0, _ => rfl
  | fuel + 1, st => by
    rw [stringLoop]
    split_ifs
    · rw [stringLoop_tokens buf fuel]
      exact (advanceL_fields buf st).2.2.2.1
    · rfl

/-- The literal scan loop does not touch the token list. -/
theorem scanLiteralLoop_tokens (buf : List Char) :
    ∀ (fuel : Nat) (st : LexSt), (scanLiteralLoop buf fuel st).tokens = st.tokens
  | 0, _ => rfl
  | fuel + 1, st => by
    rw [scanLiteralLoop]
    split_ifs
    · rw [scanLiteralLoop_tokens buf fuel]
      exact (advanceL_fields buf st).2.2.2.1
    · rfl

/-- The keyword table never maps to the EOF token type. -/
theorem keywordType_ne_eof (text : String) (ty : TokenType)
    (h : keywordType text = some ty) : ty ≠ TokenType.EOF := by
  unfold keywordType at h
  split_ifs at h <;> injection h with h2 <;> rw [← h2] <;> decide

/-- `Lexer.identifier` adds no EOF token. -/
theorem identifier_noEof (buf : List Char) (fuel : Nat) (st : LexSt)
    (h : noEofTokens st.tokens) : noEofTokens (identifier buf fuel st).tokens := by
  unfold identifier
  dsimp only
  have h1 : noEofTokens (identifierLoop buf fuel st).tokens := by
    rw [identifierLoop_tokens]
    exact h
  split
  · rename_i ty hty
    exact addToken_noEof _ _ _ _ (keywordType_ne_eof _ _ hty) h1
  · exact addToken_noEof _ _ _ _ (by decide) h1

/-- `Lexer.number` adds no EOF token. -/
theorem number_noEof (buf : List Char) (fuel : Nat) (st : LexSt)
    (h : noEofTokens st.tokens) : noEofTokens (number buf fuel st).tokens := by
  unfold number
  apply addToken_noEof _ _ _ _ (by decide)
  rw [numberLoop_tokens]
  exact h

/-- `Lexer.string` adds no EOF token. -/
theorem stringTok_noEof (buf : List Char) (fuel : Nat) (st : LexSt)
    (h : noEofTokens st.tokens) : noEofTokens (stringTok buf fuel st).tokens := by
  unfold stringTok
  dsimp only
  rcases hm : matchL buf (stringLoop buf fuel st) '\x22' with ⟨m, st2⟩
  dsimp only
  have h2 : noEofTokens st2.tokens := by
    have h3 := congrArg (fun p => p.2.tokens) hm
    dsimp only at h3
    rw [matchL_tokens, stringLoop_tokens] at h3
    rw [← h3]
    exact h
  split_ifs with hmm
  · exact addToken_noEof _ _ _ _ (by decide) h2
  · apply addToken_noEof _ _ _ _ (by decide)
    rw [lexError_tokens]
    exact h2

/-- The two-character probe branch adds no EOF token when its target type
is not EOF. -/
theorem scanPairOrError_noEof (buf : List Char) (st : LexSt) (second : Char)
    (ty : TokenType) (msg : String) (hty : ty ≠ TokenType.EOF)
    (h : noEofTokens st.tokens) :
    noEofTokens (scanPairOrError buf st second ty msg).tokens := by
  unfold scanPairOrError
  rcases hm : matchL buf st second with ⟨m, st2⟩
  dsimp only
  have h2 : noEofTokens st2.tokens := by
    have h3 := congrArg (fun p => p.2.tokens) hm
    dsimp only at h3
    rw [matchL_tokens] at h3
    rw [← h3]
    exact h
  split_ifs with hmm
  · exact addToken_noEof _ _ _ _ hty h2
  · rw [lexError_tokens, (advanceL_fields buf st2).2.2.2.1]
    exact h2

/-- `Lexer.scanLiteral` adds no EOF token. -/
theorem scanLiteral_noEof (buf : List Char) (fuel : Nat) (st : LexSt)
    (h : noEofTokens st.tokens) : noEofTokens (scanLiteral buf fuel st).tokens := by
  unfold scanLiteral
  apply addToken_noEof _ _ _ _ (by decide)
  rw [scanLiteralLoop_tokens]
  exact h

/-- The expression-region dispatch loop adds no EOF token. -/
theorem scanExprLoop_noEof (buf : List Char) :
    ∀ (fuel : Nat) (st : LexSt), noEofTokens st.tokens →
      noEofTokens (scanExprLoop buf fuel st).tokens
  | 0, _, h => h
  | fuel + 1, st, h => by
    rw [scanExprLoop]
    split_ifs with hc
    case neg => exact h
    dsimp only
    rcases ha : advanceL buf st with ⟨c, st2⟩
    dsimp only
    have h2 : noEofTokens st2.tokens := by
      have h3 := congrArg (fun p => p.2.tokens) ha
      dsimp only at h3
      rw [(advanceL_fields buf st).2.2.2.1] at h3
      rw [← h3]
      exact h
    apply scanExprLoop_noEof buf fuel
    split
    · exact addToken_noEof _ _ _ _ (by decide) h2
    · exact addToken_noEof _ _ _ _ (by decide) h2
    · exact addToken_noEof _ _ _ _ (by decide) h2
    · exact addToken_noEof _ _ _ _ (by decide) h2
    · exact addToken_noEof _ _ _ _ (by decide) h2
    · rcases hm : matchL buf st2 '=' with ⟨m, st3⟩
      dsimp only
      have h4 : noEofTokens st3.tokens := by
        have h5 := congrArg (fun p => p.2.tokens) hm
        dsimp only at h5
        rw [matchL_tokens] at h5
        rw [← h5]
        exact h2
      split_ifs with hmm
      · exact addToken_noEof _ _ _ _ (by decide) h4
      · exact addToken_noEof _ _ _ _ (by decide) h4
    · exact scanPairOrError_noEof _ _ _ _ _ (by decide) h2
    · rcases hm : matchL buf st2 '=' with ⟨m, st3⟩
      dsimp only
      have h4 : noEofTokens st3.tokens := by
        have h5 := congrArg (fun p => p.2.tokens) hm
        dsimp only at h5
        rw [matchL_tokens] at h5
        rw [← h5]
        exact h2
      split_ifs with hmm
      · exact addToken_noEof _ _ _ _ (by decide) h4
      · exact addToken_noEof _ _ _ _ (by decide) h4
    · rcases hm : matchL buf st2 '=' with ⟨m, st3⟩
      dsimp only
      have h4 : noEofTokens st3.tokens := by
        have h5 := congrArg (fun p => p.2.tokens) hm
        dsimp only at h5
        rw [matchL_tokens] at h5
        rw [← h5]
        exact h2
      split_ifs with hmm
      · exact addToken_noEof _ _ _ _ (by decide) h4
      · exact addToken_noEof _ _ _ _ (by decide) h4
    · exact stringTok_noEof buf fuel st2 h2
    · exact scanPairOrError_noEof _ _ _ _ _ (by decide) h2
    · exact scanPairOrError_noEof _ _ _ _ _ (by decide) h2
    · exact h2
    · split_ifs with hd hi
      · exact number_noEof buf fuel st2 h2
      · exact identifier_noEof buf fuel st2 h2
      · rw [lexError_tokens]
        exact h2
    · exact h2

/-- `Lexer.scanExpr` adds no EOF token. -/
theorem scanExpr_noEof (buf : List Char) (fuel : Nat) (st : LexSt)
    (h : noEofTokens st.tokens) : noEofTokens (scanExpr buf fuel st).tokens := by
  unfold scanExpr
  dsimp only
  rcases hm1 : matchL buf (scanExprLoop buf fuel st) '\x7d' with ⟨m1, st2⟩
  dsimp only
  have h2 : noEofTokens st2.tokens := by
    have h3 := congrArg (fun p => p.2.tokens) hm1
    dsimp only at h3
    rw [matchL_tokens] at h3
    rw [← h3]
    exact scanExprLoop_noEof buf fuel st h
  have h4 : noEofTokens ((matchL buf st2 '\x7d').2).tokens := by
    rw [matchL_tokens]
    exact h2
  split_ifs with hmm1 hmm2
  · exact addToken_noEof _ _ _ _ (by decide) h4
  · exact h4
  · exact h2

/-- Dropping the last token preserves the absence of EOF tokens. -/
theorem noEofTokens_dropLast (ts : List Token) (h : noEofTokens ts) :
    noEofTokens ts.dropLast :=
  fun t ht => h t ((List.dropLast_sublist ts).subset ht)

/-- The top scan loop only emits an EOF token as the final token of its
result: dropping the last token leaves an EOF-free list. -/
theorem scanTokensLoop_shape (buf : List Char) :
    ∀ (fuel : Nat) (st : LexSt), noEofTokens st.tokens →
      noEofTokens ((scanTokensLoop buf fuel st).tokens.dropLast)
  | 0, _, h => noEofTokens_dropLast _ h
  | fuel + 1, st, h => by
    rw [scanTokensLoop]
    split_ifs with hend
    · rw [(addToken_fields buf st TokenType.EOF).1, List.dropLast_concat]
      exact h
    · dsimp only
      rcases ha : advanceL buf st with ⟨c, st2⟩
      dsimp only
      have h2 : noEofTokens st2.tokens := by
        have h3 := congrArg (fun p => p.2.tokens) ha
        dsimp only at h3
        rw [(advanceL_fields buf st).2.2.2.1] at h3
        rw [← h3]
        exact h
      apply scanTokensLoop_shape buf fuel
      have h3 : noEofTokens ((matchL buf st2 '\x7b').2).tokens := by
        rw [matchL_tokens]
        exact h2
      split_ifs with hbrace hmm
      · exact scanExpr_noEof buf fuel _ (addToken_noEof _ _ _ _ (by decide) h3)
      · exact scanLiteral_noEof buf fuel _ h3
      · exact scanLiteral_noEof buf fuel st2 h2

/-- The token sequence of `scanTokens` is EOF-free except possibly for
its final token. -/
theorem scanTokens_shape (buf : List Char) : noEofTokens ((scanTokens buf).1.dropLast) := by
  unfold scanTokens
  dsimp only
  apply scanTokensLoop_shape
  intro t ht
  exact absurd ht (List.not_mem_nil t)

/-- An element before the last position lies in `dropLast`. -/
theorem mem_dropLast_of_get {α : Type} :
    ∀ (l : List α) (n : Nat) (c : α), l.get? n = some c → n + 1 < l.length → c ∈ l.dropLast
  | [], n, c, h, hl => by simp at h
  | [x], n, c, h, hl => by simp at hl
  | x :: y :: t, 0, c, h, hl => by
    simp only [List.get?] at h
    injection h with h2
    rw [← h2]
    rw [show (x :: y :: t).dropLast = x :: (y :: t).dropLast from rfl]
    exact List.mem_cons_self _ _
  | x :: y :: t, n + 1, c, h, hl => by
    simp only [List.get?] at h
    rw [show (x :: y :: t).dropLast = x :: (y :: t).dropLast from rfl]
    apply List.mem_cons_of_mem
    exact mem_dropLast_of_get (y :: t) n c h
      (by simp only [List.length_cons] at hl ⊢; omega)

/-- Past a cursor that peeks EOF, the token tail contributes no LITERAL
lexemes (the scanner emits EOF only as the final token). -/
theorem eof_drop_lits (toks : List Token) (c0 : Nat)
    (hshape : noEofTokens toks.dropLast)
    (hpk : (peekP toks c0).type = TokenType.EOF) :
    litLexemes (toks.drop c0) = [] := by
  by_cases hlt : c0 < toks.length
  · have hg : toks.get? c0 = some (toks.get ⟨c0, hlt⟩) := List.get?_eq_get hlt
    have hd := drop_cons_of_get toks c0 _ hg
    have hpg : peekP toks c0 = toks.get ⟨c0, hlt⟩ := by
      unfold peekP
      rw [List.getD_eq_getElem?_getD, ← List.get?_eq_getElem?, hg]
      rfl
    have hpk2 : (toks.get ⟨c0, hlt⟩).type = TokenType.EOF := by
      rw [← hpg]
      exact hpk
    have hlast : toks.length ≤ c0 + 1 := by
      by_contra h2
      push_neg at h2
      exact hshape _ (mem_dropLast_of_get toks c0 _ hg h2) hpk2
    rw [hd, List.drop_eq_nil_of_le hlast]
    have hne : ¬ ((toks.get ⟨c0, hlt⟩).type = TokenType.LITERAL) := by
      rw [hpk2]
      decide
    simp only [litLexemes, if_neg hne]
  · rw [List.drop_eq_nil_of_le (by omega)]
    rfl

/-- C9 corrected/amended.  For every source text whose compilation
succeeds, parsing discards no literal text: the Literal contents of the
statement tree (in document order, descending into if/for bodies) are
exactly the lexemes of the scanner's LITERAL tokens, in order.  A
maximal literal run of the source is nevertheless not always a single
Literal node: on a `{{`-free source the tree is a sequence of one or
more nonempty adjacent Literal nodes — the scanner starts a new token
before each `\x7b` character — whose contents concatenate back to the
full source. -/
theorem c9_literal_runs_preserved (src : String) (stmts : List Stmt)
    (h : compileFile src = some stmts) :
    stmtsLits stmts = litLexemes (scanTokens src.data).1 ∧
    (noOpenExpr src →
      ∃ pieces : List String,
        stmts = pieces.map Stmt.literal ∧
        concatStrs pieces = src ∧
        ∀ p ∈ pieces, p ≠ "") := by
  constructor
  · unfold compileFile compileFileSt at h
    rcases hsp : scanAndParse src with ⟨stmts0, ds⟩
    rw [hsp] at h
    dsimp only at h
    split_ifs at h with hh
    · have hds : ds = [] := by
        cases ds with
        | nil => rfl
        | cons d rest => exact absurd (by simp) hh
      have hstmts : stmts0 = stmts := Option.some.inj h
      subst hds
      subst hstmts
      unfold scanAndParse at hsp
      rcases hscan : scanTokens src.data with ⟨toks, lexDs⟩
      rw [hscan] at hsp
      dsimp only at hsp
      rcases hpt : parseTokens toks with ⟨stmts1, parseDs⟩
      rw [hpt] at hsp
      dsimp only at hsp
      obtain ⟨hs1, hds2⟩ := Prod.mk.injEq _ _ _ _ ▸ hsp
      have hpd : parseDs = [] := (List.append_eq_nil.mp hds2).2
      unfold parseTokens at hpt
      rcases hpl : parseLoop toks (3 * toks.length + 10) 0 none with ⟨ds0, ns0, c0⟩
      rw [hpl] at hpt
      dsimp only at hpt
      obtain ⟨hns, hds0⟩ := Prod.mk.injEq _ _ _ _ ▸ hpt
      rw [hpd] at hds0
      rw [hds0] at hpl
      obtain ⟨hle, hlits, hstopf⟩ := parseLoop_lits toks (3 * toks.length + 10) 0 none ns0 c0 hpl
      have heof : (peekP toks c0).type = TokenType.EOF := by
        rcases hstopf (by omega) with he | hs2
        · exact he
        · simp [stopPred] at hs2
      have hshape := scanTokens_shape src.data
      rw [hscan] at hshape
      dsimp only at hshape
      have hdrop := eof_drop_lits toks c0 hshape heof
      dsimp only
      rw [← hs1, ← hns, hlits]
      have hsplit : toks = tokSlice toks 0 c0 ++ toks.drop c0 := by
        unfold tokSlice
        rw [List.drop_zero, Nat.sub_zero]
        exact (List.take_append_drop c0 toks).symm
      conv_rhs => rw [hsplit]
      rw [litLexemes_append, hdrop, List.append_nil]
  · intro hno
    have hc := compileFile_noOpenExpr src hno
    rw [h] at hc
    have hstmts := Option.some.inj hc
    refine ⟨(chunks src.data).map (fun ch => String.mk ch), ?_, ?_, ?_⟩
    · rw [hstmts, List.map_map]
      rfl
    · rw [concatStrs_map_mk, chunks_flatten]
    · intro p hp hemp
      obtain ⟨ch, hch, hpe⟩ := List.mem_map.mp hp
      apply chunks_mem_ne_nil src.data ch hch
      have h2 : (String.mk ch).data = ("" : String).data := by rw [hpe, hemp]
      simpa using h2

/-- C9 witness at a concrete source with an if statement: the tree keeps
both literal texts `"x"` and `"y"`, matching the scanner's LITERAL
lexemes. -/
theorem c9_witness :
    compileFile "x\x7b\x7bif(c)\x7d\x7dy\x7b\x7bendif\x7d\x7d" =
      some [Stmt.literal "x",
        Stmt.ifStmt (LogicExpr.unary (UnaryValue.varV ["c"]) false) [Stmt.literal "y"]] ∧
    stmtsLits [Stmt.literal "x",
        Stmt.ifStmt (LogicExpr.unary (UnaryValue.varV ["c"]) false) [Stmt.literal "y"]] =
      litLexemes (scanTokens "x\x7b\x7bif(c)\x7d\x7dy\x7b\x7bendif\x7d\x7d".data).1 :=
  ⟨rfl, (c9_literal_runs_preserved "x\x7b\x7bif(c)\x7d\x7dy\x7b\x7bendif\x7d\x7d"
    [Stmt.literal "x",
      Stmt.ifStmt (LogicExpr.unary (UnaryValue.varV ["c"]) false) [Stmt.literal "y"]] rfl).1⟩

end Tpl
